import Mathlib

/-!
Verification development for the PulsePortraiture TOA/DM fitting code
(`pplib.py`, `pptoas.py`).  The Python source is shallowly embedded:
real/complex numpy arrays become functions `ℕ → ℝ` / `ℕ → ℂ` or `List ℝ` /
`List ℂ`, numpy's `rfft`/`irfft` become explicit discrete-Fourier sums, and
the statements below settle the specification claims about this code.
-/

noncomputable section

open Complex Finset

/-- Dispersion constant used throughout `pplib.py`:
`Dconst = Dconst_trad = 0.000241**-1` [MHz**2 pc**-1 cm**3 s]. -/
def Dconst : ℝ := (0.000241 : ℝ)⁻¹

/-! ## Harmonic-domain objective, gradient and curvature (`pplib.py` 251-319)

`data`/`model` are the harmonic (rFFT) portraits `dFFT`/`mFFT`; `nchan` is
`len(freqs)` and `nharm` is `len(model[nn])` (uniform across channels for a
2-D numpy array).  All products inside `np.exp`/`np.real` are complex, so we
fix one association order; `pp_ik k` is the factor `harmind * 2.0j * np.pi`
(equivalently `2j*np.pi*harmind`). -/

/-- The factor `k * 2.0j * np.pi` appearing in all phasors and derivatives. -/
def pp_ik (k : ℕ) : ℂ := (k : ℂ) * (2 * (Real.pi : ℂ) * Complex.I)

/-- The per-channel dispersive term `freq**-2.0 - nu0**-2.0`. -/
def pp_freqterm (freqs : ℕ → ℝ) (nu0 : ℝ) (nn : ℕ) : ℝ :=
  (freqs nn ^ 2)⁻¹ - (nu0 ^ 2)⁻¹

/-- The total trial delay `phase + (D * (freq**-2.0 - nu0**-2.0))` with
`D = Dconst * params[1] / P` (`pplib.py` 260, 265-266). -/
def pp_delay (P : ℝ) (freqs : ℕ → ℝ) (nu0 phase DM : ℝ) (nn : ℕ) : ℝ :=
  phase + Dconst * DM / P * pp_freqterm freqs nu0 nn

/-- The phasor `np.exp(harmind * 2.0j * np.pi * (phase + D*(freq**-2 - nu0**-2)))`. -/
def pp_phasor (P : ℝ) (freqs : ℕ → ℝ) (nu0 phase DM : ℝ) (nn k : ℕ) : ℂ :=
  Complex.exp (pp_ik k * (pp_delay P freqs nu0 phase DM nn : ℝ))

/-- `mm`/`g1` in the source: `np.real(data[nn,:] * np.conj(model[nn,:]) * phasor).sum()`. -/
def pp_g1 (nharm : ℕ) (model data : ℕ → ℕ → ℂ) (P : ℝ) (freqs : ℕ → ℝ)
    (nu0 phase DM : ℝ) (nn : ℕ) : ℝ :=
  ∑ k ∈ Finset.range nharm,
    (data nn k * (starRingEnd ℂ) (model nn k) * pp_phasor P freqs nu0 phase DM nn k).re

/-- `gp2`: `np.real(2j*np.pi*harmind * data * np.conj(model) * phasor).sum()`. -/
def pp_gp2 (nharm : ℕ) (model data : ℕ → ℕ → ℂ) (P : ℝ) (freqs : ℕ → ℝ)
    (nu0 phase DM : ℝ) (nn : ℕ) : ℝ :=
  ∑ k ∈ Finset.range nharm,
    (pp_ik k * data nn k * (starRingEnd ℂ) (model nn k) *
      pp_phasor P freqs nu0 phase DM nn k).re

/-- `gd2`: `np.real(2j*np.pi*harmind * (freq**-2-nu0**-2) * (Dconst/P) * data * conj(model) * phasor).sum()`. -/
def pp_gd2 (nharm : ℕ) (model data : ℕ → ℕ → ℂ) (P : ℝ) (freqs : ℕ → ℝ)
    (nu0 phase DM : ℝ) (nn : ℕ) : ℝ :=
  ∑ k ∈ Finset.range nharm,
    (pp_ik k * (pp_freqterm freqs nu0 nn : ℝ) * ((Dconst / P : ℝ) : ℂ) *
      data nn k * (starRingEnd ℂ) (model nn k) *
      pp_phasor P freqs nu0 phase DM nn k).re

/-- `gp3`: `np.real(pow(2j*np.pi*harmind, 2.0) * data * conj(model) * phasor).sum()`. -/
def pp_gp3 (nharm : ℕ) (model data : ℕ → ℕ → ℂ) (P : ℝ) (freqs : ℕ → ℝ)
    (nu0 phase DM : ℝ) (nn : ℕ) : ℝ :=
  ∑ k ∈ Finset.range nharm,
    (pp_ik k ^ 2 * data nn k * (starRingEnd ℂ) (model nn k) *
      pp_phasor P freqs nu0 phase DM nn k).re

/-- `gd3`: `np.real(pow(2j*np.pi*harmind * (freq**-2-nu0**-2) * (Dconst/P), 2.0) * data * conj(model) * phasor).sum()`. -/
def pp_gd3 (nharm : ℕ) (model data : ℕ → ℕ → ℂ) (P : ℝ) (freqs : ℕ → ℝ)
    (nu0 phase DM : ℝ) (nn : ℕ) : ℝ :=
  ∑ k ∈ Finset.range nharm,
    ((pp_ik k * (pp_freqterm freqs nu0 nn : ℝ) * ((Dconst / P : ℝ) : ℂ)) ^ 2 *
      data nn k * (starRingEnd ℂ) (model nn k) *
      pp_phasor P freqs nu0 phase DM nn k).re

/-- `fit_portrait_function` (`pplib.py` 251-269): returns `d - m` with
`m = Σ_nn mm**2 * errs[nn] / p[nn]`. -/
def fit_portrait_function (nchan nharm : ℕ) (model : ℕ → ℕ → ℂ) (p : ℕ → ℝ)
    (data : ℕ → ℕ → ℂ) (d : ℝ) (errs : ℕ → ℝ) (P : ℝ) (freqs : ℕ → ℝ)
    (nu0 phase DM : ℝ) : ℝ :=
  d - ∑ nn ∈ Finset.range nchan,
    pp_g1 nharm model data P freqs nu0 phase DM nn ^ 2 * errs nn / p nn

/-- `fit_portrait_function_deriv` (`pplib.py` 271-291): the returned pair
`(d_phi, d_DM)` with `d_phi += -2*g1*gp2*err/p[nn]` etc. -/
def fit_portrait_function_deriv (nchan nharm : ℕ) (model : ℕ → ℕ → ℂ)
    (p : ℕ → ℝ) (data : ℕ → ℕ → ℂ) (errs : ℕ → ℝ) (P : ℝ) (freqs : ℕ → ℝ)
    (nu0 phase DM : ℝ) : ℝ × ℝ :=
  (∑ nn ∈ Finset.range nchan,
      -2 * pp_g1 nharm model data P freqs nu0 phase DM nn *
        pp_gp2 nharm model data P freqs nu0 phase DM nn * errs nn / p nn,
   ∑ nn ∈ Finset.range nchan,
      -2 * pp_g1 nharm model data P freqs nu0 phase DM nn *
        pp_gd2 nharm model data P freqs nu0 phase DM nn * errs nn / p nn)

/-- `fit_portrait_function_2deriv` (`pplib.py` 293-319): the returned pair
`(d2_phi, d2_DM)` with `d2_phi += -2.0*err*(pow(gp2,2.0) + g1*gp3)/p[nn]` etc. -/
def fit_portrait_function_2deriv (nchan nharm : ℕ) (model : ℕ → ℕ → ℂ)
    (p : ℕ → ℝ) (data : ℕ → ℕ → ℂ) (errs : ℕ → ℝ) (P : ℝ) (freqs : ℕ → ℝ)
    (nu0 phase DM : ℝ) : ℝ × ℝ :=
  (∑ nn ∈ Finset.range nchan,
      -2 * errs nn * (pp_gp2 nharm model data P freqs nu0 phase DM nn ^ 2 +
        pp_g1 nharm model data P freqs nu0 phase DM nn *
          pp_gp3 nharm model data P freqs nu0 phase DM nn) / p nn,
   ∑ nn ∈ Finset.range nchan,
      -2 * errs nn * (pp_gd2 nharm model data P freqs nu0 phase DM nn ^ 2 +
        pp_g1 nharm model data P freqs nu0 phase DM nn *
          pp_gd3 nharm model data P freqs nu0 phase DM nn) / p nn)

/-- The mixed second derivative of `fit_portrait_function` in `phase` and `DM`.
Modelled from the spec: the off-diagonal entry of the "full 2x2 Hessian for the
phase/DM pair" (the analogous cross sum with one `2j*np.pi*harmind` factor and
one `2j*np.pi*harmind*(freq**-2-nu0**-2)*(Dconst/P)` factor); no such code
exists in `pplib.py`.  The lemma `hasDerivAt_fit_portrait_deriv_fst_DM` below
proves this is the genuine mixed partial of the source objective. -/
def fit_portrait_mixed_2deriv (nchan nharm : ℕ) (model : ℕ → ℕ → ℂ)
    (p : ℕ → ℝ) (data : ℕ → ℕ → ℂ) (errs : ℕ → ℝ) (P : ℝ) (freqs : ℕ → ℝ)
    (nu0 phase DM : ℝ) : ℝ :=
  ∑ nn ∈ Finset.range nchan,
    -2 * errs nn * (pp_gd2 nharm model data P freqs nu0 phase DM nn *
        pp_gp2 nharm model data P freqs nu0 phase DM nn +
      pp_g1 nharm model data P freqs nu0 phase DM nn *
        ((pp_freqterm freqs nu0 nn * (Dconst / P)) *
          pp_gp3 nharm model data P freqs nu0 phase DM nn)) / p nn

/-- The constant `d` computed in `fit_portrait` (`pplib.py` 515-516):
`np.real(np.sum(np.transpose(errs * np.transpose(dFFT * np.conj(dFFT)))))`.
It is a function of the noise weights and data only — by its very argument
list it cannot depend on the trial parameters `phase`, `DM`. -/
def pp_dconst (nchan nharm : ℕ) (errs : ℕ → ℝ) (data : ℕ → ℕ → ℂ) : ℝ :=
  (∑ nn ∈ Finset.range nchan,
    (errs nn : ℂ) * ∑ k ∈ Finset.range nharm,
      data nn k * (starRingEnd ℂ) (data nn k)).re

/-- `param_errs` head of `fit_portrait` (`pplib.py` 544-545):
`pow(fit_portrait_function_2deriv(...), -0.5)` — elementwise inverse square
roots of the two diagonal second derivatives only. -/
def fit_portrait_param_errs (nchan nharm : ℕ) (model : ℕ → ℕ → ℂ)
    (p : ℕ → ℝ) (data : ℕ → ℕ → ℂ) (errs : ℕ → ℝ) (P : ℝ) (freqs : ℕ → ℝ)
    (nu0 phase DM : ℝ) : ℝ × ℝ :=
  ((fit_portrait_function_2deriv nchan nharm model p data errs P freqs nu0
      phase DM).1 ^ (-(1/2) : ℝ),
   (fit_portrait_function_2deriv nchan nharm model p data errs P freqs nu0
      phase DM).2 ^ (-(1/2) : ℝ))

/-- Modelled from the spec: the phase uncertainty obtained from "a full 2x2
Hessian ... formed for the phase/DM pair", i.e. the square root of the (0,0)
entry of the inverse of `!![d2phi, cross; cross, d2DM]`, which equals
`sqrt (d2DM / (d2phi*d2DM - cross^2))`. -/
def spec_full_hessian_phi_err (d2phi d2DM cross : ℝ) : ℝ :=
  Real.sqrt ((!![d2phi, cross; cross, d2DM]⁻¹) 0 0)

/-- Concrete two-channel, two-harmonic portrait (data = model, all power in
harmonic 1) used as the counterexample input for the curvature claim. -/
def cexData : ℕ → ℕ → ℂ := fun _ k => if k = 1 then 1 else 0

/-- Unit channel powers / unit noise precisions for the counterexample. -/
def cexOne : ℕ → ℝ := fun _ => 1

/-- Channel frequencies 1 and 2 MHz for the counterexample. -/
def cexFreqs : ℕ → ℝ := fun nn => if nn = 0 then 1 else 2

/-! ## Discrete Fourier transforms (numpy `rfft`/`irfft`) and rotation
(`pplib.py` 674-689, 883-894)

`np.fft.rfft` of a real length-`n` signal returns the `n/2 + 1` (floor
division) coefficients `X_k = Σ_t x_t exp(-2πi k t / n)`.  `np.fft.irfft`
maps `n/2 + 1` coefficients back to a real length-`n` signal using the
Hermitian extension; the imaginary parts of the DC bin and (for even `n`)
the Nyquist bin are not referenced, which the weights `hweight` make exact:
`x_t = n⁻¹ Σ_k w_k Re(X_k exp(2πi k t / n))` with `w_k = 1` for the DC and
Nyquist bins and `w_k = 2` otherwise. -/

/-- The unit phasor `exp(2πi m / n)` for an integer relative frequency. -/
def unitExp (n : ℕ) (m : ℤ) : ℂ :=
  Complex.exp (2 * (Real.pi : ℂ) * Complex.I * m / n)

/-- Weight of harmonic `k` in the inverse real FFT of output length `n`. -/
def hweight (n k : ℕ) : ℕ := if k = 0 ∨ 2 * k = n then 1 else 2

/-- numpy `np.fft.rfft` on a real list. -/
def rfft (x : List ℝ) : List ℂ :=
  (List.range (x.length / 2 + 1)).map fun (k : ℕ) =>
    ∑ t ∈ Finset.range x.length, (x.getD t 0 : ℂ) * unitExp x.length (-(k * t : ℤ))

/-- numpy `np.fft.irfft` with explicit output length `n` (coefficients beyond
position `n/2` are ignored and missing ones are zero-padded, as in numpy). -/
def irfft (X : List ℂ) (n : ℕ) : List ℝ :=
  (List.range n).map fun (t : ℕ) =>
    (n : ℝ)⁻¹ * ∑ k ∈ Finset.range (n / 2 + 1),
      (hweight n k : ℝ) * (X.getD k 0 * unitExp n ((k * t : ℤ))).re

/-- The Nyquist coefficient `Σ_t (-1)^t x_t` of a real signal (the last rFFT
coefficient when the length is even). -/
def nyquistCoeff (xs : List ℝ) : ℝ :=
  ∑ t ∈ Finset.range xs.length, (-1 : ℝ) ^ t * xs.getD t 0

/-- Spectrum-multiplier skeleton shared by `fft_rotate` and `rotate_portrait`:
multiply the rFFT by a per-harmonic factor and inverse-transform to length `n`. -/
def specMul (f : ℕ → ℂ) (x : List ℝ) (n : ℕ) : List ℝ :=
  irfft (List.zipWith (· * ·) ((List.range (x.length / 2 + 1)).map f) (rfft x)) n

/-- `fft_rotate` (`pplib.py` 883-894): multiply the rFFT by
`np.exp(complex(0.0, 2*np.pi) * freqs * bins / float(arr.size))` and
inverse-transform back to the input length. -/
def fft_rotate (arr : List ℝ) (bins : ℝ) : List ℝ :=
  specMul (fun k => Complex.exp (2 * (Real.pi : ℂ) * Complex.I * k * bins / arr.length))
    arr arr.length

/-- `rotate_portrait` (`pplib.py` 674-689).  Each channel's rFFT is multiplied
by `np.exp(np.arange(len(pFFT[nn])) * 2.0j * np.pi * phase)` (plus the
dispersive term when `DM`/`freqs` are given) and the result is
`fft.irfft(pFFT)` with numpy's default output length `2*(len(pFFT[nn]) - 1)`.
When exactly one of `DM`, `freqs` is `None` the Python code raises; here the
missing value is read as a junk default, which no claim exercises. -/
def rotate_portrait (port : List (List ℝ)) (phase : ℝ) (DM : Option ℝ)
    (P : ℝ) (freqs : Option (List ℝ)) (nu0 : ℝ) : List (List ℝ) :=
  (List.range port.length).map fun nn =>
    let row := port.getD nn []
    let K := row.length / 2 + 1
    match DM, freqs with
    | none, none =>
        specMul (fun k => Complex.exp ((k : ℂ) * (2 * (Real.pi : ℂ) * Complex.I) * (phase : ℝ)))
          row (2 * (K - 1))
    | oDM, ofreqs =>
        let D : ℝ := (oDM.getD 0) * Dconst / P
        let freq : ℝ := (ofreqs.getD []).getD nn 0
        specMul (fun k => Complex.exp ((k : ℂ) * (2 * (Real.pi : ℂ) * Complex.I) *
            ((phase + D * ((freq ^ 2)⁻¹ - (nu0 ^ 2)⁻¹) : ℝ) : ℂ)))
          row (2 * (K - 1))

/-! ## Gaussian profile generator (`pplib.py` 68-120) -/

/-- `sigma = wid / (2 * np.sqrt(2 * np.log(2)))`. -/
def gaussian_sigma (wid : ℝ) : ℝ := wid / (2 * Real.sqrt (2 * Real.log 2))

/-- `mean = loc % 1.0` (Python float modulus is `Int.fract`). -/
def gaussian_mean (loc : ℝ) : ℝ := Int.fract loc

/-- The cyclically adjusted abscissa `locval` of bin `t` (`pplib.py` 97-101). -/
def gaussian_locval (N : ℕ) (loc : ℝ) (t : ℕ) : ℝ :=
  let mean := gaussian_mean loc
  let lv : ℝ := (t : ℝ) / N
  if mean < 1 / 2 then (if mean + 1 / 2 < lv then lv - 1 else lv)
  else (if lv < mean - 1 / 2 then lv + 1 else lv)

/-- `zs = (locval - mean) / sigma`. -/
def gaussian_zs (N : ℕ) (loc wid : ℝ) (t : ℕ) : ℝ :=
  (gaussian_locval N loc t - gaussian_mean loc) / gaussian_sigma wid

/-- `retval` before normalization: zero outside the 20-sigma cutoff
(`okzinds`), the normal density inside (`pplib.py` 102-108). -/
def gaussian_raw (N : ℕ) (loc wid : ℝ) : List ℝ :=
  (List.range N).map fun t =>
    if |gaussian_zs N loc wid t| < 20 then
      Real.exp (-(1 / 2) * gaussian_zs N loc wid t ^ 2) /
        (gaussian_sigma wid * Real.sqrt (2 * Real.pi))
    else 0

/-- `np.max(np.abs(xs))` (with 0 for an empty array). -/
def np_maxabs (xs : List ℝ) : ℝ := (xs.map fun v => |v|).foldr max 0

/-- `gaussian_profile(N, loc, wid, norm, abs_wid, zeroout)` (`pplib.py` 68-120),
with the source's branch order: `wid > 0` falls through to the body,
`wid == 0` and `wid < 0 and zeroout` return zeros, `wid < 0 and not zeroout`
falls through.  Unnormalized output is divided by `np.max(abs(retval))`
unless that maximum is zero, in which case `retval` is returned as is. -/
def gaussian_profile (N : ℕ) (loc wid : ℝ) (norm abs_wid zeroout : Bool) : List ℝ :=
  let w := if abs_wid then |wid| else wid
  let body :=
    if norm then gaussian_raw N loc w
    else if np_maxabs (gaussian_raw N loc w) = 0 then gaussian_raw N loc w
    else (gaussian_raw N loc w).map fun v => v / np_maxabs (gaussian_raw N loc w)
  if 0 < w then body
  else if w = 0 then List.replicate N 0
  else if w < 0 ∧ zeroout = true then List.replicate N 0
  else body

/-! ## `fit_portrait` (`pplib.py` 500-555) and its helpers

The scipy optimizer `opt.minimize(..., method='TNC')` is external; its outcome
is modelled as an oracle record `OptResult` (`results.x`, `results.fun`,
`results.nfev`, `results.status`, `results.success`) plus the measured wall
time.  Everything `fit_portrait` computes around that call is embedded. -/

/-- Outcome of the external scipy optimizer call together with the wall time. -/
structure OptResult where
  x1 : ℝ
  x2 : ℝ
  fnval : ℝ
  nfev : ℕ
  status : ℤ
  success : Bool
  duration : ℝ

/-- The `RCSTRINGS` dictionary (`pplib.py` 37-45); a lookup at any other key
raises `KeyError` in Python, hence `Option`. -/
def RCSTRINGS : ℤ → Option String := fun s =>
  if s = -1 then some "INFEASIBLE: Infeasible (low > up)."
  else if s = 0 then some "LOCALMINIMUM: Local minima reach (|pg| ~= 0)."
  else if s = 1 then some "FCONVERGED: Converged (|f_n-f_(n-1)| ~= 0.)"
  else if s = 2 then some "XCONVERGED: Converged (|x_n-x_(n-1)| ~= 0.)"
  else if s = 3 then some "MAXFUN: Max. number of function evaluations reach."
  else if s = 4 then some "LSFAIL: Linear search failed."
  else if s = 5 then some "CONSTANT: All lower bounds are equal to the upper bounds."
  else if s = 6 then some "NOPROGRESS: Unable to progress."
  else if s = 7 then some "USERABORT: User requested end of minimization."
  else none

/-- `len(dFFT[0])`, the per-channel harmonic count `nbin/2 + 1`. -/
def fp_nharm (data : List (List ℝ)) : ℕ := (data.getD 0 []).length / 2 + 1

/-- The harmonic data array `dFFT = fft.rfft(data, axis=1)` as a function. -/
def fp_fft (data : List (List ℝ)) : ℕ → ℕ → ℂ := fun nn k =>
  (rfft (data.getD nn [])).getD k 0

/-- numpy `xs.mean()`. -/
def np_mean (xs : List ℝ) : ℝ := xs.sum / xs.length

/-- numpy population variance `xs.var()` (`ddof=0`). -/
def np_var (xs : List ℝ) : ℝ := ((xs.map fun v => (v - np_mean xs) ^ 2).sum) / xs.length

/-- numpy `xs.std()` (population standard deviation). -/
def np_std (xs : List ℝ) : ℝ := Real.sqrt (np_var xs)

/-- The internally derived per-channel precisions (`pplib.py` 511, 514):
`unnorm_errs = np.real(dFFT[:, -len(dFFT[0])/4:]).std(axis=1)**-2.0`.
Python 2's `-len(dFFT[0])/4` floors to `-⌈K/4⌉`, so the slice keeps the last
`⌈K/4⌉ = (K+3)/4` harmonic coefficients of each channel. -/
def fp_errs (data : List (List ℝ)) : ℕ → ℝ := fun nn =>
  np_std (((rfft (data.getD nn [])).drop
    (fp_nharm data - (fp_nharm data + 3) / 4)).map Complex.re) ^ (-2 : ℝ)

/-- `p = np.real(np.sum(mFFT * np.conj(mFFT), axis=1))` (`pplib.py` 517). -/
def fp_p (model : List (List ℝ)) : ℕ → ℝ := fun nn =>
  (∑ k ∈ Finset.range (fp_nharm model),
    fp_fft model nn k * (starRingEnd ℂ) (fp_fft model nn k)).re

/-- The objective closure `fit_portrait` hands to `opt.minimize`
(`pplib.py` 521, 528-530): `fit_portrait_function` evaluated on
`(mFFT, p, dFFT, d, errs, P, freqs, nu0)` with the internally derived
`errs` and `d`. -/
def fitPortraitObjective (data model : List (List ℝ)) (P : ℝ)
    (freqs : List ℝ) (nu0 : ℝ) (phase DM : ℝ) : ℝ :=
  fit_portrait_function freqs.length (fp_nharm model) (fp_fft model)
    (fp_p model) (fp_fft data)
    (pp_dconst data.length (fp_nharm data) (fp_errs data) (fp_fft data))
    (fp_errs data) P (fun nn => freqs.getD nn 0) nu0 phase DM

/-- `get_scales` (`pplib.py` 660-672): per-channel amplitudes at the fitted
`(phase, DM)`; the source accumulates `Re(dFFT*conj(mFFT)*phasor)/p` over `k`. -/
def get_scales (data model : List (List ℝ)) (phase DM P : ℝ)
    (freqs : List ℝ) (nu0 : ℝ) : List ℝ :=
  (List.range model.length).map fun nn =>
    ∑ k ∈ Finset.range (fp_nharm model),
      (fp_fft data nn k * (starRingEnd ℂ) (fp_fft model nn k) *
        Complex.exp (pp_ik k *
          ((phase + DM * Dconst / P * ((freqs.getD nn 0 ^ 2)⁻¹ - (nu0 ^ 2)⁻¹) : ℝ) : ℂ))).re /
      fp_p model nn

/-- Everything `fit_portrait` returns (with the default `scales=True`),
plus whether the non-convergence warning was written to stderr. -/
structure FitPortraitOut where
  warned : Bool
  phi : ℝ
  DM : ℝ
  nfeval : ℕ
  return_code : ℤ
  scales : List ℝ
  param_errs : List ℝ
  red_chi2 : ℝ
  duration : ℝ

/-- `DoF = len(data.ravel()) - (len(freqs) + 2)` (`pplib.py` 546). -/
def fp_DoF (data : List (List ℝ)) (freqs : List ℝ) : ℝ :=
  ((data.map List.length).sum : ℝ) - ((freqs.length : ℝ) + 2)

/-- `fit_portrait` (`pplib.py` 500-555) around the optimizer oracle `res`:
the `RCSTRINGS` lookup (line 536) raises `KeyError` for an undocumented
return code; otherwise the function always returns the last iterate, emitting
the stderr warning exactly when `results.success` is not `True`. -/
def fitPortrait (data model : List (List ℝ)) (P : ℝ) (freqs : List ℝ)
    (nu0 : ℝ) (res : OptResult) : Except String FitPortraitOut :=
  match RCSTRINGS res.status with
  | none => Except.error "KeyError"
  | some _ => Except.ok
      { warned := !res.success
        phi := res.x1
        DM := res.x2
        nfeval := res.nfev
        return_code := res.status
        scales := get_scales data model res.x1 res.x2 P freqs nu0
        param_errs :=
          [(fit_portrait_param_errs freqs.length (fp_nharm model)
              (fp_fft model) (fp_p model) (fp_fft data) (fp_errs data) P
              (fun nn => freqs.getD nn 0) nu0 res.x1 res.x2).1,
           (fit_portrait_param_errs freqs.length (fp_nharm model)
              (fp_fft model) (fp_p model) (fp_fft data) (fp_errs data) P
              (fun nn => freqs.getD nn 0) nu0 res.x1 res.x2).2] ++
          (List.range model.length).map (fun nn =>
            (2 * fp_p model nn * fp_errs data nn) ^ (-(1/2) : ℝ))
        red_chi2 := res.fnval / fp_DoF data freqs
        duration := res.duration }

/-! ## `GetTOAs.get_TOAs` (`pptoas.py` 140-455): parameter counting, the
degenerate low-channel fallback, and the `fit_DM=False` bounds mutation -/

/-- `self.nfit` (`pptoas.py` 193-202): `1`, `+1` per enabled DM/GM fit, `+2`
for a scattering fit, `-1` when alpha is held fixed (the subtraction happens
whether or not `fit_scat` is set, exactly as in the source). -/
def pt_nfit (fit_DM fit_GM fit_scat fix_alpha : Bool) : ℕ :=
  (1 + (if fit_DM then 1 else 0) + (if fit_GM then 1 else 0) +
    (if fit_scat then 2 else 0)) - (if fix_alpha then 1 else 0)

/-- `self.nchan_min` (`pptoas.py` 194-208): `1`, `+1` per enabled DM/GM fit,
raised to at least 2 when the scattering index is fitted
(`fit_alpha = fit_scat and not fix_alpha`). -/
def pt_nchan_min (fit_DM fit_GM fit_scat fix_alpha : Bool) : ℕ :=
  let base := 1 + (if fit_DM then 1 else 0) + (if fit_GM then 1 else 0)
  if fit_scat && !fix_alpha then max 2 base else base

/-- `np.identity(n)` as a total function on indices. -/
def identityMat (n : ℕ) : ℕ → ℕ → ℝ := fun i j =>
  if i < n ∧ j < n ∧ i = j then 1 else 0

/-- The per-subintegration fit record assembled by `get_TOAs`
(`pptoas.py` 419-455); optional parameters are `None` in the fallback. -/
structure SubintResults where
  phi : ℝ
  phi_err : ℝ
  DM : Option ℝ
  DM_err : Option ℝ
  GM : Option ℝ
  GM_err : Option ℝ
  tau : Option ℝ
  tau_err : Option ℝ
  alpha : Option ℝ
  alpha_err : Option ℝ
  nfeval : ℕ
  return_code : ℤ
  scales : List ℝ
  scale_errs : List ℝ
  covsize : ℕ
  covariance : ℕ → ℕ → ℝ

/-- The degenerate phase-only fallback record (`pptoas.py` 441-455).  The
Fourier phase-gradient estimate `fit_phase_shift(portx[0], modelx[0], ...)`
lives in the external `pptoaslib`; its phase/scale outputs enter here as
abstract inputs.  All optional parameters are `None`, `nfeval = 0`,
`return_code = -2`, and the covariance is `np.identity(self.nfit)`. -/
def pt_fallback_results (nfit : ℕ) (phase phase_err scale scale_error : ℝ) :
    SubintResults :=
  { phi := phase, phi_err := phase_err
    DM := none, DM_err := none, GM := none, GM_err := none
    tau := none, tau_err := none, alpha := none, alpha_err := none
    nfeval := 0, return_code := -2
    scales := [scale], scale_errs := [scale_error]
    covsize := nfit, covariance := identityMat nfit }

/-- The branch `if len(freqsx) >= self.nchan_min: ... else: ...`
(`pptoas.py` 419-455): the joint fit (external `fit_portrait_full`) when
enough valid channels remain, the degenerate fallback otherwise. -/
def pt_fit_branch (fit_DM fit_GM fit_scat fix_alpha : Bool) (nvalid : ℕ)
    (joint : SubintResults) (phase phase_err scale scale_error : ℝ) :
    SubintResults :=
  if pt_nchan_min fit_DM fit_GM fit_scat fix_alpha ≤ nvalid then joint
  else pt_fallback_results (pt_nfit fit_DM fit_GM fit_scat fix_alpha)
    phase phase_err scale scale_error

/-- `DM0` resolution (`pptoas.py` 277-281): the supplied `DM0` if any,
otherwise the stored header DM. -/
def pt_resolve_DM0 (DM0 : Option ℝ) (DM_stored : ℝ) : ℝ := DM0.getD DM_stored

/-- The statement `if not fit_DM: bounds[1] = (DM0, DM0)` (`pptoas.py`
282-283).  With the default `bounds=None` this is `None[1] = ...`, a Python
`TypeError`, modelled as the error case. -/
def pt_apply_fix_DM (fit_DM : Bool) (bounds : Option (List (Option ℝ × Option ℝ)))
    (DM0 : ℝ) : Except String (Option (List (Option ℝ × Option ℝ))) :=
  if fit_DM then Except.ok bounds
  else
    match bounds with
    | none => Except.error "TypeError: NoneType object does not support item assignment"
    | some bs => Except.ok (some (bs.set 1 (some DM0, some DM0)))

/-! ## Theorems -/

/-- C1: `fit_portrait_function`, evaluated with the constant
`d = Σ_c ε_c Σ_k |D_c[k]|²` computed in `fit_portrait` (a function of the
noise weights and data alone, hence independent of the trial parameters),
returns `d - Σ_c g1_c² ε_c / p_c` where
`g1_c = Re[Σ_k D_c[k] conj(M_c[k]) exp(2πik(phase + (Dconst·DM/P)(f_c⁻² - nu0⁻²)))]`. -/
theorem C1_fit_portrait_function_formula (nchan nharm : ℕ)
    (model : ℕ → ℕ → ℂ) (p : ℕ → ℝ) (data : ℕ → ℕ → ℂ) (errs : ℕ → ℝ)
    (P : ℝ) (freqs : ℕ → ℝ) (nu0 phase DM : ℝ) :
    fit_portrait_function nchan nharm model p data
        (pp_dconst nchan nharm errs data) errs P freqs nu0 phase DM =
      pp_dconst nchan nharm errs data -
        ∑ nn ∈ Finset.range nchan,
          (∑ k ∈ Finset.range nharm,
            data nn k * (starRingEnd ℂ) (model nn k) *
              Complex.exp (2 * (Real.pi : ℂ) * Complex.I * k *
                ((phase + Dconst * DM / P * ((freqs nn ^ 2)⁻¹ - (nu0 ^ 2)⁻¹) : ℝ) : ℂ))).re ^ 2
          * errs nn / p nn ∧
    pp_dconst nchan nharm errs data =
      ∑ nn ∈ Finset.range nchan, errs nn *
        ∑ k ∈ Finset.range nharm, Complex.normSq (data nn k) := by
  constructor
  · have hg : ∀ nn, pp_g1 nharm model data P freqs nu0 phase DM nn =
        (∑ k ∈ Finset.range nharm,
          data nn k * (starRingEnd ℂ) (model nn k) *
            Complex.exp (2 * (Real.pi : ℂ) * Complex.I * k *
              ((phase + Dconst * DM / P * ((freqs nn ^ 2)⁻¹ - (nu0 ^ 2)⁻¹) : ℝ) : ℂ))).re := by
      intro nn
      unfold pp_g1
      rw [Complex.re_sum]
      refine Finset.sum_congr rfl fun k _ => ?_
      unfold pp_phasor pp_ik pp_delay pp_freqterm
      congr 2
      ring_nf
    unfold fit_portrait_function
    simp only [hg]
  · unfold pp_dconst
    rw [show (∑ nn ∈ Finset.range nchan, ((errs nn : ℂ) *
        ∑ k ∈ Finset.range nharm, data nn k * (starRingEnd ℂ) (data nn k))) =
        ((∑ nn ∈ Finset.range nchan, errs nn *
          ∑ k ∈ Finset.range nharm, Complex.normSq (data nn k) : ℝ) : ℂ) from by
      simp only [Complex.mul_conj]
      push_cast
      ring]
    exact Complex.ofReal_re _

/-- Real part of a complex number that factors a real scalar. -/
lemma re_real_smul (r : ℝ) (z w : ℂ) (h : z = (r : ℂ) * w) : z.re = r * w.re := by
  rw [h, Complex.re_ofReal_mul]

/-- Core differentiation lemma: a finite sum of real parts of fixed complex
amplitudes times phasors `exp(pp_ik k * g s)` differentiates term by term,
producing one extra `pp_ik k` factor and the chain factor `g'`. -/
lemma hasDerivAt_re_exp_sum (n : ℕ) (A : ℕ → ℂ) {g : ℝ → ℝ} {g' t : ℝ}
    (hg : HasDerivAt g g' t) :
    HasDerivAt (fun s => ∑ k ∈ Finset.range n,
        (A k * Complex.exp (pp_ik k * ((g s : ℝ) : ℂ))).re)
      (∑ k ∈ Finset.range n,
        (pp_ik k * A k * Complex.exp (pp_ik k * ((g t : ℝ) : ℂ))).re * g') t := by
  refine HasDerivAt.sum fun k _ => ?_
  have h2 : HasDerivAt (fun s : ℝ => pp_ik k * ((g s : ℝ) : ℂ))
      (pp_ik k * ((g' : ℝ) : ℂ)) t := hg.ofReal_comp.const_mul _
  have h4 : HasDerivAt (fun s : ℝ => A k * Complex.exp (pp_ik k * ((g s : ℝ) : ℂ)))
      (A k * (Complex.exp (pp_ik k * ((g t : ℝ) : ℂ)) * (pp_ik k * ((g' : ℝ) : ℂ)))) t :=
    h2.cexp.const_mul _
  have h5 : HasDerivAt (fun s : ℝ => (A k * Complex.exp (pp_ik k * ((g s : ℝ) : ℂ))).re)
      ((A k * (Complex.exp (pp_ik k * ((g t : ℝ) : ℂ)) * (pp_ik k * ((g' : ℝ) : ℂ)))).re) t :=
    Complex.reCLM.hasFDerivAt.comp_hasDerivAt t h4
  convert h5 using 1
  rw [re_real_smul g' (A k * (Complex.exp (pp_ik k * ((g t : ℝ) : ℂ)) *
      (pp_ik k * ((g' : ℝ) : ℂ))))
    (pp_ik k * A k * Complex.exp (pp_ik k * ((g t : ℝ) : ℂ))) (by ring)]
  ring

/-- The delay is an affine function of the trial phase with unit slope. -/
lemma hasDerivAt_pp_delay_phase (P : ℝ) (freqs : ℕ → ℝ) (nu0 phase DM : ℝ)
    (nn : ℕ) :
    HasDerivAt (fun s => pp_delay P freqs nu0 s DM nn) 1 phase := by
  unfold pp_delay
  exact (hasDerivAt_id phase).add_const _

/-- The delay is an affine function of the trial DM with slope
`Dconst / P * (freq**-2 - nu0**-2)` (also valid for `P = 0`, where both the
function and the slope degenerate to constants/zero in Lean's semantics). -/
lemma hasDerivAt_pp_delay_DM (P : ℝ) (freqs : ℕ → ℝ) (nu0 phase DM : ℝ)
    (nn : ℕ) :
    HasDerivAt (fun s => pp_delay P freqs nu0 phase s nn)
      (Dconst / P * pp_freqterm freqs nu0 nn) DM := by
  have hfun : (fun s => pp_delay P freqs nu0 phase s nn) =
      fun s => s * (Dconst / P * pp_freqterm freqs nu0 nn) + phase := by
    funext s
    unfold pp_delay
    ring
  rw [hfun]
  simpa using ((hasDerivAt_id DM).mul_const
    (Dconst / P * pp_freqterm freqs nu0 nn)).add_const phase

/-- Partial derivative of `g1` in the trial phase is `gp2`. -/
lemma hasDerivAt_pp_g1_phase (nharm : ℕ) (model data : ℕ → ℕ → ℂ) (P : ℝ)
    (freqs : ℕ → ℝ) (nu0 phase DM : ℝ) (nn : ℕ) :
    HasDerivAt (fun s => pp_g1 nharm model data P freqs nu0 s DM nn)
      (pp_gp2 nharm model data P freqs nu0 phase DM nn) phase := by
  have h := hasDerivAt_re_exp_sum nharm
    (fun k => data nn k * (starRingEnd ℂ) (model nn k))
    (hasDerivAt_pp_delay_phase P freqs nu0 phase DM nn)
  have hval : (∑ k ∈ Finset.range nharm,
      (pp_ik k * (data nn k * (starRingEnd ℂ) (model nn k)) *
        Complex.exp (pp_ik k * ((pp_delay P freqs nu0 phase DM nn : ℝ) : ℂ))).re * 1) =
      pp_gp2 nharm model data P freqs nu0 phase DM nn := by
    unfold pp_gp2 pp_phasor
    refine Finset.sum_congr rfl fun k _ => ?_
    rw [mul_one]
    congr 1
    ring
  rw [← hval]
  exact h

/-- Partial derivative of `gp2` in the trial phase is `gp3`. -/
lemma hasDerivAt_pp_gp2_phase (nharm : ℕ) (model data : ℕ → ℕ → ℂ) (P : ℝ)
    (freqs : ℕ → ℝ) (nu0 phase DM : ℝ) (nn : ℕ) :
    HasDerivAt (fun s => pp_gp2 nharm model data P freqs nu0 s DM nn)
      (pp_gp3 nharm model data P freqs nu0 phase DM nn) phase := by
  have h := hasDerivAt_re_exp_sum nharm
    (fun k => pp_ik k * data nn k * (starRingEnd ℂ) (model nn k))
    (hasDerivAt_pp_delay_phase P freqs nu0 phase DM nn)
  have hval : (∑ k ∈ Finset.range nharm,
      (pp_ik k * (pp_ik k * data nn k * (starRingEnd ℂ) (model nn k)) *
        Complex.exp (pp_ik k * ((pp_delay P freqs nu0 phase DM nn : ℝ) : ℂ))).re * 1) =
      pp_gp3 nharm model data P freqs nu0 phase DM nn := by
    unfold pp_gp3 pp_phasor
    refine Finset.sum_congr rfl fun k _ => ?_
    rw [mul_one]
    congr 1
    ring
  rw [← hval]
  exact h

/-- Partial derivative of `g1` in the trial DM is `gd2`. -/
lemma hasDerivAt_pp_g1_DM (nharm : ℕ) (model data : ℕ → ℕ → ℂ) (P : ℝ)
    (freqs : ℕ → ℝ) (nu0 phase DM : ℝ) (nn : ℕ) :
    HasDerivAt (fun s => pp_g1 nharm model data P freqs nu0 phase s nn)
      (pp_gd2 nharm model data P freqs nu0 phase DM nn) DM := by
  have h := hasDerivAt_re_exp_sum nharm
    (fun k => data nn k * (starRingEnd ℂ) (model nn k))
    (hasDerivAt_pp_delay_DM P freqs nu0 phase DM nn)
  have hval : (∑ k ∈ Finset.range nharm,
      (pp_ik k * (data nn k * (starRingEnd ℂ) (model nn k)) *
        Complex.exp (pp_ik k * ((pp_delay P freqs nu0 phase DM nn : ℝ) : ℂ))).re *
        (Dconst / P * pp_freqterm freqs nu0 nn)) =
      pp_gd2 nharm model data P freqs nu0 phase DM nn := by
    unfold pp_gd2 pp_phasor
    refine Finset.sum_congr rfl fun k _ => ?_
    rw [re_real_smul (Dconst / P * pp_freqterm freqs nu0 nn)
      (pp_ik k * ((pp_freqterm freqs nu0 nn : ℝ) : ℂ) * ((Dconst / P : ℝ) : ℂ) *
        data nn k * (starRingEnd ℂ) (model nn k) *
        Complex.exp (pp_ik k * ((pp_delay P freqs nu0 phase DM nn : ℝ) : ℂ)))
      (pp_ik k * (data nn k * (starRingEnd ℂ) (model nn k)) *
        Complex.exp (pp_ik k * ((pp_delay P freqs nu0 phase DM nn : ℝ) : ℂ)))
      (by push_cast; ring)]
    ring
  rw [← hval]
  exact h

/-- Partial derivative of `gd2` in the trial DM is `gd3`. -/
lemma hasDerivAt_pp_gd2_DM (nharm : ℕ) (model data : ℕ → ℕ → ℂ) (P : ℝ)
    (freqs : ℕ → ℝ) (nu0 phase DM : ℝ) (nn : ℕ) :
    HasDerivAt (fun s => pp_gd2 nharm model data P freqs nu0 phase s nn)
      (pp_gd3 nharm model data P freqs nu0 phase DM nn) DM := by
  have h := hasDerivAt_re_exp_sum nharm
    (fun k => pp_ik k * ((pp_freqterm freqs nu0 nn : ℝ) : ℂ) *
      ((Dconst / P : ℝ) : ℂ) * data nn k * (starRingEnd ℂ) (model nn k))
    (hasDerivAt_pp_delay_DM P freqs nu0 phase DM nn)
  have hval : (∑ k ∈ Finset.range nharm,
      (pp_ik k * (pp_ik k * ((pp_freqterm freqs nu0 nn : ℝ) : ℂ) *
          ((Dconst / P : ℝ) : ℂ) * data nn k * (starRingEnd ℂ) (model nn k)) *
        Complex.exp (pp_ik k * ((pp_delay P freqs nu0 phase DM nn : ℝ) : ℂ))).re *
        (Dconst / P * pp_freqterm freqs nu0 nn)) =
      pp_gd3 nharm model data P freqs nu0 phase DM nn := by
    unfold pp_gd3 pp_phasor
    refine Finset.sum_congr rfl fun k _ => ?_
    rw [re_real_smul (Dconst / P * pp_freqterm freqs nu0 nn)
      ((pp_ik k * ((pp_freqterm freqs nu0 nn : ℝ) : ℂ) * ((Dconst / P : ℝ) : ℂ)) ^ 2 *
        data nn k * (starRingEnd ℂ) (model nn k) *
        Complex.exp (pp_ik k * ((pp_delay P freqs nu0 phase DM nn : ℝ) : ℂ)))
      (pp_ik k * (pp_ik k * ((pp_freqterm freqs nu0 nn : ℝ) : ℂ) *
          ((Dconst / P : ℝ) : ℂ) * data nn k * (starRingEnd ℂ) (model nn k)) *
        Complex.exp (pp_ik k * ((pp_delay P freqs nu0 phase DM nn : ℝ) : ℂ)))
      (by push_cast; ring)]
    ring
  rw [← hval]
  exact h

/-- Partial derivative of `gp2` in the trial DM: the cross phasor sum,
expressible through `gp3` with the dispersive chain factor. -/
lemma hasDerivAt_pp_gp2_DM (nharm : ℕ) (model data : ℕ → ℕ → ℂ) (P : ℝ)
    (freqs : ℕ → ℝ) (nu0 phase DM : ℝ) (nn : ℕ) :
    HasDerivAt (fun s => pp_gp2 nharm model data P freqs nu0 phase s nn)
      (pp_freqterm freqs nu0 nn * (Dconst / P) *
        pp_gp3 nharm model data P freqs nu0 phase DM nn) DM := by
  have h := hasDerivAt_re_exp_sum nharm
    (fun k => pp_ik k * data nn k * (starRingEnd ℂ) (model nn k))
    (hasDerivAt_pp_delay_DM P freqs nu0 phase DM nn)
  have hval : (∑ k ∈ Finset.range nharm,
      (pp_ik k * (pp_ik k * data nn k * (starRingEnd ℂ) (model nn k)) *
        Complex.exp (pp_ik k * ((pp_delay P freqs nu0 phase DM nn : ℝ) : ℂ))).re *
        (Dconst / P * pp_freqterm freqs nu0 nn)) =
      pp_freqterm freqs nu0 nn * (Dconst / P) *
        pp_gp3 nharm model data P freqs nu0 phase DM nn := by
    unfold pp_gp3 pp_phasor
    rw [Finset.mul_sum]
    refine Finset.sum_congr rfl fun k _ => ?_
    rw [show pp_ik k * (pp_ik k * data nn k * (starRingEnd ℂ) (model nn k)) *
        Complex.exp (pp_ik k * ((pp_delay P freqs nu0 phase DM nn : ℝ) : ℂ)) =
        pp_ik k ^ 2 * data nn k * (starRingEnd ℂ) (model nn k) *
          Complex.exp (pp_ik k * ((pp_delay P freqs nu0 phase DM nn : ℝ) : ℂ)) from by ring]
    ring
  rw [← hval]
  exact h

/-- C2: `fit_portrait_function_deriv` returns exactly the two partial
derivatives of `fit_portrait_function` with respect to the trial phase and
trial DM, at every input. -/
theorem C2_fit_portrait_function_deriv_correct (nchan nharm : ℕ)
    (model : ℕ → ℕ → ℂ) (p : ℕ → ℝ) (data : ℕ → ℕ → ℂ) (d : ℝ)
    (errs : ℕ → ℝ) (P : ℝ) (freqs : ℕ → ℝ) (nu0 phase DM : ℝ) :
    HasDerivAt (fun s => fit_portrait_function nchan nharm model p data d errs
        P freqs nu0 s DM)
      (fit_portrait_function_deriv nchan nharm model p data errs P freqs nu0
        phase DM).1 phase ∧
    HasDerivAt (fun s => fit_portrait_function nchan nharm model p data d errs
        P freqs nu0 phase s)
      (fit_portrait_function_deriv nchan nharm model p data errs P freqs nu0
        phase DM).2 DM := by
  constructor
  · have hsum : HasDerivAt (fun s => ∑ nn ∈ Finset.range nchan,
        pp_g1 nharm model data P freqs nu0 s DM nn ^ 2 * errs nn / p nn)
        (∑ nn ∈ Finset.range nchan,
          (2 : ℕ) * pp_g1 nharm model data P freqs nu0 phase DM nn ^ (2 - 1) *
            pp_gp2 nharm model data P freqs nu0 phase DM nn * errs nn / p nn)
        phase := by
      refine HasDerivAt.sum fun nn _ => ?_
      exact (((hasDerivAt_pp_g1_phase nharm model data P freqs nu0 phase DM
        nn).pow 2).mul_const (errs nn)).div_const (p nn)
    have h := (hasDerivAt_const phase d).sub hsum
    convert h using 1
    simp only [fit_portrait_function_deriv, zero_sub]
    rw [← Finset.sum_neg_distrib]
    refine Finset.sum_congr rfl fun nn _ => ?_
    push_cast
    ring
  · have hsum : HasDerivAt (fun s => ∑ nn ∈ Finset.range nchan,
        pp_g1 nharm model data P freqs nu0 phase s nn ^ 2 * errs nn / p nn)
        (∑ nn ∈ Finset.range nchan,
          (2 : ℕ) * pp_g1 nharm model data P freqs nu0 phase DM nn ^ (2 - 1) *
            pp_gd2 nharm model data P freqs nu0 phase DM nn * errs nn / p nn)
        DM := by
      refine HasDerivAt.sum fun nn _ => ?_
      exact (((hasDerivAt_pp_g1_DM nharm model data P freqs nu0 phase DM
        nn).pow 2).mul_const (errs nn)).div_const (p nn)
    have h := (hasDerivAt_const DM d).sub hsum
    convert h using 1
    simp only [fit_portrait_function_deriv, zero_sub]
    rw [← Finset.sum_neg_distrib]
    refine Finset.sum_congr rfl fun nn _ => ?_
    push_cast
    ring

/-- Second partial of the objective in the phase direction: differentiating
the first component of `fit_portrait_function_deriv` in `phase` yields the
first component of `fit_portrait_function_2deriv`. -/
lemma hasDerivAt_fit_portrait_deriv_fst_phase (nchan nharm : ℕ)
    (model : ℕ → ℕ → ℂ) (p : ℕ → ℝ) (data : ℕ → ℕ → ℂ) (errs : ℕ → ℝ)
    (P : ℝ) (freqs : ℕ → ℝ) (nu0 phase DM : ℝ) :
    HasDerivAt (fun s => (fit_portrait_function_deriv nchan nharm model p data
        errs P freqs nu0 s DM).1)
      (fit_portrait_function_2deriv nchan nharm model p data errs P freqs nu0
        phase DM).1 phase := by
  have hsum : HasDerivAt (fun s => ∑ nn ∈ Finset.range nchan,
      -2 * pp_g1 nharm model data P freqs nu0 s DM nn *
        pp_gp2 nharm model data P freqs nu0 s DM nn * errs nn / p nn)
      (∑ nn ∈ Finset.range nchan,
        ((-2 * pp_gp2 nharm model data P freqs nu0 phase DM nn *
            pp_gp2 nharm model data P freqs nu0 phase DM nn +
          -2 * pp_g1 nharm model data P freqs nu0 phase DM nn *
            pp_gp3 nharm model data P freqs nu0 phase DM nn) * errs nn) / p nn)
      phase := by
    refine HasDerivAt.sum fun nn _ => ?_
    exact ((((hasDerivAt_pp_g1_phase nharm model data P freqs nu0 phase DM
      nn).const_mul (-2)).mul (hasDerivAt_pp_gp2_phase nharm model data P freqs
      nu0 phase DM nn)).mul_const (errs nn)).div_const (p nn)
  have hval : (fit_portrait_function_2deriv nchan nharm model p data errs P
      freqs nu0 phase DM).1 =
      ∑ nn ∈ Finset.range nchan,
        ((-2 * pp_gp2 nharm model data P freqs nu0 phase DM nn *
            pp_gp2 nharm model data P freqs nu0 phase DM nn +
          -2 * pp_g1 nharm model data P freqs nu0 phase DM nn *
            pp_gp3 nharm model data P freqs nu0 phase DM nn) * errs nn) / p nn := by
    simp only [fit_portrait_function_2deriv]
    exact Finset.sum_congr rfl fun nn _ => by ring
  rw [hval]
  exact hsum

/-- Second partial of the objective in the DM direction: differentiating the
second component of `fit_portrait_function_deriv` in `DM` yields the second
component of `fit_portrait_function_2deriv`. -/
lemma hasDerivAt_fit_portrait_deriv_snd_DM (nchan nharm : ℕ)
    (model : ℕ → ℕ → ℂ) (p : ℕ → ℝ) (data : ℕ → ℕ → ℂ) (errs : ℕ → ℝ)
    (P : ℝ) (freqs : ℕ → ℝ) (nu0 phase DM : ℝ) :
    HasDerivAt (fun s => (fit_portrait_function_deriv nchan nharm model p data
        errs P freqs nu0 phase s).2)
      (fit_portrait_function_2deriv nchan nharm model p data errs P freqs nu0
        phase DM).2 DM := by
  have hsum : HasDerivAt (fun s => ∑ nn ∈ Finset.range nchan,
      -2 * pp_g1 nharm model data P freqs nu0 phase s nn *
        pp_gd2 nharm model data P freqs nu0 phase s nn * errs nn / p nn)
      (∑ nn ∈ Finset.range nchan,
        ((-2 * pp_gd2 nharm model data P freqs nu0 phase DM nn *
            pp_gd2 nharm model data P freqs nu0 phase DM nn +
          -2 * pp_g1 nharm model data P freqs nu0 phase DM nn *
            pp_gd3 nharm model data P freqs nu0 phase DM nn) * errs nn) / p nn)
      DM := by
    refine HasDerivAt.sum fun nn _ => ?_
    exact ((((hasDerivAt_pp_g1_DM nharm model data P freqs nu0 phase DM
      nn).const_mul (-2)).mul (hasDerivAt_pp_gd2_DM nharm model data P freqs
      nu0 phase DM nn)).mul_const (errs nn)).div_const (p nn)
  have hval : (fit_portrait_function_2deriv nchan nharm model p data errs P
      freqs nu0 phase DM).2 =
      ∑ nn ∈ Finset.range nchan,
        ((-2 * pp_gd2 nharm model data P freqs nu0 phase DM nn *
            pp_gd2 nharm model data P freqs nu0 phase DM nn +
          -2 * pp_g1 nharm model data P freqs nu0 phase DM nn *
            pp_gd3 nharm model data P freqs nu0 phase DM nn) * errs nn) / p nn := by
    simp only [fit_portrait_function_2deriv]
    exact Finset.sum_congr rfl fun nn _ => by ring
  rw [hval]
  exact hsum

/-- Mixed partial: differentiating the phase component of
`fit_portrait_function_deriv` in `DM` yields `fit_portrait_mixed_2deriv`;
this certifies the latter as the genuine off-diagonal Hessian entry of
`fit_portrait_function`. -/
lemma hasDerivAt_fit_portrait_deriv_fst_DM (nchan nharm : ℕ)
    (model : ℕ → ℕ → ℂ) (p : ℕ → ℝ) (data : ℕ → ℕ → ℂ) (errs : ℕ → ℝ)
    (P : ℝ) (freqs : ℕ → ℝ) (nu0 phase DM : ℝ) :
    HasDerivAt (fun s => (fit_portrait_function_deriv nchan nharm model p data
        errs P freqs nu0 phase s).1)
      (fit_portrait_mixed_2deriv nchan nharm model p data errs P freqs nu0
        phase DM) DM := by
  have hsum : HasDerivAt (fun s => ∑ nn ∈ Finset.range nchan,
      -2 * pp_g1 nharm model data P freqs nu0 phase s nn *
        pp_gp2 nharm model data P freqs nu0 phase s nn * errs nn / p nn)
      (∑ nn ∈ Finset.range nchan,
        ((-2 * pp_gd2 nharm model data P freqs nu0 phase DM nn *
            pp_gp2 nharm model data P freqs nu0 phase DM nn +
          -2 * pp_g1 nharm model data P freqs nu0 phase DM nn *
            (pp_freqterm freqs nu0 nn * (Dconst / P) *
              pp_gp3 nharm model data P freqs nu0 phase DM nn)) * errs nn) / p nn)
      DM := by
    refine HasDerivAt.sum fun nn _ => ?_
    exact ((((hasDerivAt_pp_g1_DM nharm model data P freqs nu0 phase DM
      nn).const_mul (-2)).mul (hasDerivAt_pp_gp2_DM nharm model data P freqs
      nu0 phase DM nn)).mul_const (errs nn)).div_const (p nn)
  have hval : fit_portrait_mixed_2deriv nchan nharm model p data errs P freqs
      nu0 phase DM =
      ∑ nn ∈ Finset.range nchan,
        ((-2 * pp_gd2 nharm model data P freqs nu0 phase DM nn *
            pp_gp2 nharm model data P freqs nu0 phase DM nn +
          -2 * pp_g1 nharm model data P freqs nu0 phase DM nn *
            (pp_freqterm freqs nu0 nn * (Dconst / P) *
              pp_gp3 nharm model data P freqs nu0 phase DM nn)) * errs nn) / p nn := by
    simp only [fit_portrait_mixed_2deriv]
    exact Finset.sum_congr rfl fun nn _ => by ring
  rw [hval]
  exact hsum

/-- C4 (amended): the curvature used for the reported phase/DM uncertainties
is diagonal-only.  `fit_portrait` (lines 544-545) reports
`fit_portrait_function_2deriv ** -0.5` componentwise, and the two components
are exactly the diagonal second partials `∂²F/∂phase²` and `∂²F/∂DM²`;
no off-diagonal cross term enters. -/
theorem C4_amended_diagonal_only_curvature (nchan nharm : ℕ)
    (model : ℕ → ℕ → ℂ) (p : ℕ → ℝ) (data : ℕ → ℕ → ℂ) (errs : ℕ → ℝ)
    (P : ℝ) (freqs : ℕ → ℝ) (nu0 phase DM : ℝ) :
    fit_portrait_param_errs nchan nharm model p data errs P freqs nu0 phase DM =
      ((fit_portrait_function_2deriv nchan nharm model p data errs P freqs nu0
          phase DM).1 ^ (-(1/2) : ℝ),
       (fit_portrait_function_2deriv nchan nharm model p data errs P freqs nu0
          phase DM).2 ^ (-(1/2) : ℝ)) ∧
    HasDerivAt (fun s => (fit_portrait_function_deriv nchan nharm model p data
        errs P freqs nu0 s DM).1)
      (fit_portrait_function_2deriv nchan nharm model p data errs P freqs nu0
        phase DM).1 phase ∧
    HasDerivAt (fun s => (fit_portrait_function_deriv nchan nharm model p data
        errs P freqs nu0 phase s).2)
      (fit_portrait_function_2deriv nchan nharm model p data errs P freqs nu0
        phase DM).2 DM :=
  ⟨rfl,
   hasDerivAt_fit_portrait_deriv_fst_phase nchan nharm model p data errs P
     freqs nu0 phase DM,
   hasDerivAt_fit_portrait_deriv_snd_DM nchan nharm model p data errs P freqs
     nu0 phase DM⟩

/-- C4 (counterexample): on the concrete two-channel portrait the
phase/DM mixed partial of the objective is the nonzero `-6π²·Dconst`, yet the
uncertainty reported by `fit_portrait` is `(∂²F/∂phase²)^(-1/2) = (4π)⁻¹`,
which differs from the value `(2√2·π)⁻¹` that a full 2x2 phase/DM Hessian
inversion would give — the reported uncertainties do not account for the
off-diagonal cross term. -/
theorem C4_counterexample :
    fit_portrait_mixed_2deriv 2 2 cexData cexOne cexData cexOne 1 cexFreqs 1 0 0 =
      -6 * Real.pi ^ 2 * Dconst ∧
    fit_portrait_mixed_2deriv 2 2 cexData cexOne cexData cexOne 1 cexFreqs 1 0 0 ≠ 0 ∧
    (fit_portrait_function_2deriv 2 2 cexData cexOne cexData cexOne 1 cexFreqs 1 0 0).1 =
      16 * Real.pi ^ 2 ∧
    (fit_portrait_function_2deriv 2 2 cexData cexOne cexData cexOne 1 cexFreqs 1 0 0).2 =
      9 / 2 * Real.pi ^ 2 * Dconst ^ 2 ∧
    (fit_portrait_param_errs 2 2 cexData cexOne cexData cexOne 1 cexFreqs 1 0 0).1 ≠
      spec_full_hessian_phi_err
        (fit_portrait_function_2deriv 2 2 cexData cexOne cexData cexOne 1 cexFreqs 1 0 0).1
        (fit_portrait_function_2deriv 2 2 cexData cexOne cexData cexOne 1 cexFreqs 1 0 0).2
        (fit_portrait_mixed_2deriv 2 2 cexData cexOne cexData cexOne 1 cexFreqs 1 0 0) := by
  have hπ : Real.pi ≠ 0 := Real.pi_ne_zero
  have hD : Dconst ≠ 0 := by unfold Dconst; norm_num
  have hft0 : pp_freqterm cexFreqs 1 0 = 0 := by
    norm_num [pp_freqterm, cexFreqs]
  have hft1 : pp_freqterm cexFreqs 1 1 = -(3/4) := by
    norm_num [pp_freqterm, cexFreqs]
  have hphasor : ∀ nn k, pp_phasor 1 cexFreqs 1 0 0 nn k = 1 := by
    intro nn k
    simp [pp_phasor, pp_delay]
  have hg1 : ∀ nn, pp_g1 2 cexData cexData 1 cexFreqs 1 0 0 nn = 1 := by
    intro nn
    simp [pp_g1, hphasor, Finset.sum_range_succ, cexData]
  have hgp2 : ∀ nn, pp_gp2 2 cexData cexData 1 cexFreqs 1 0 0 nn = 0 := by
    intro nn
    simp [pp_gp2, hphasor, Finset.sum_range_succ, cexData, pp_ik,
      Complex.mul_re, Complex.mul_im, Complex.I_re, Complex.I_im,
      Complex.ofReal_re, Complex.ofReal_im]
  have hgd2 : ∀ nn, pp_gd2 2 cexData cexData 1 cexFreqs 1 0 0 nn = 0 := by
    intro nn
    simp [pp_gd2, hphasor, Finset.sum_range_succ, cexData, pp_ik,
      Complex.mul_re, Complex.mul_im, Complex.I_re, Complex.I_im,
      Complex.ofReal_re, Complex.ofReal_im]
  have hgp3 : ∀ nn, pp_gp3 2 cexData cexData 1 cexFreqs 1 0 0 nn =
      -4 * Real.pi ^ 2 := by
    intro nn
    simp [pp_gp3, hphasor, Finset.sum_range_succ, cexData, pp_ik,
      Complex.mul_re, Complex.mul_im, Complex.I_re, Complex.I_im,
      Complex.ofReal_re, Complex.ofReal_im, pow_two]
    ring
  have hgd3 : ∀ nn, pp_gd3 2 cexData cexData 1 cexFreqs 1 0 0 nn =
      -4 * Real.pi ^ 2 * pp_freqterm cexFreqs 1 nn ^ 2 * Dconst ^ 2 := by
    intro nn
    simp [pp_gd3, hphasor, Finset.sum_range_succ, cexData, pp_ik,
      Complex.mul_re, Complex.mul_im, Complex.I_re, Complex.I_im,
      Complex.ofReal_re, Complex.ofReal_im, pow_two]
    ring
  have hmix : fit_portrait_mixed_2deriv 2 2 cexData cexOne cexData cexOne 1
      cexFreqs 1 0 0 = -6 * Real.pi ^ 2 * Dconst := by
    simp only [fit_portrait_mixed_2deriv, Finset.sum_range_succ,
      Finset.sum_range_zero, hg1, hgp2, hgd2, hgp3, cexOne, hft0, hft1]
    ring
  have h2d1 : (fit_portrait_function_2deriv 2 2 cexData cexOne cexData cexOne
      1 cexFreqs 1 0 0).1 = 16 * Real.pi ^ 2 := by
    simp only [fit_portrait_function_2deriv, Finset.sum_range_succ,
      Finset.sum_range_zero, hg1, hgp2, hgp3, cexOne]
    ring
  have h2d2 : (fit_portrait_function_2deriv 2 2 cexData cexOne cexData cexOne
      1 cexFreqs 1 0 0).2 = 9 / 2 * Real.pi ^ 2 * Dconst ^ 2 := by
    simp only [fit_portrait_function_2deriv, Finset.sum_range_succ,
      Finset.sum_range_zero, hg1, hgd2, hgd3, cexOne, hft0, hft1]
    ring
  refine ⟨hmix, ?_, h2d1, h2d2, ?_⟩
  · rw [hmix]
    intro h
    have hp2 : (0 : ℝ) < Real.pi ^ 2 := by positivity
    have : (6 : ℝ) * Real.pi ^ 2 * Dconst = 0 := by linarith
    rcases mul_eq_zero.1 this with h6 | hDc
    · rcases mul_eq_zero.1 h6 with h | h
      · norm_num at h
      · exact absurd h (ne_of_gt hp2)
    · exact hD hDc
  · rw [hmix, h2d1, h2d2]
    have hL : (fit_portrait_param_errs 2 2 cexData cexOne cexData cexOne 1
        cexFreqs 1 0 0).1 = (4 * Real.pi)⁻¹ := by
      show (fit_portrait_function_2deriv 2 2 cexData cexOne cexData cexOne 1
        cexFreqs 1 0 0).1 ^ (-(1/2) : ℝ) = (4 * Real.pi)⁻¹
      rw [h2d1, Real.rpow_neg (by positivity), ← Real.sqrt_eq_rpow,
        show (16 * Real.pi ^ 2 : ℝ) = (4 * Real.pi) ^ 2 by ring,
        Real.sqrt_sq (by positivity)]
    rw [hL]
    have hR : spec_full_hessian_phi_err (16 * Real.pi ^ 2)
        (9 / 2 * Real.pi ^ 2 * Dconst ^ 2) (-6 * Real.pi ^ 2 * Dconst) =
        Real.sqrt (1 / (8 * Real.pi ^ 2)) := by
      unfold spec_full_hessian_phi_err
      have hinv : (!![16 * Real.pi ^ 2, -6 * Real.pi ^ 2 * Dconst;
          -6 * Real.pi ^ 2 * Dconst, 9 / 2 * Real.pi ^ 2 * Dconst ^ 2] :
          Matrix (Fin 2) (Fin 2) ℝ)⁻¹ =
          !![1 / (8 * Real.pi ^ 2), 1 / (6 * Real.pi ^ 2 * Dconst);
             1 / (6 * Real.pi ^ 2 * Dconst), 4 / (9 * Real.pi ^ 2 * Dconst ^ 2)] := by
        apply Matrix.inv_eq_right_inv
        rw [Matrix.mul_fin_two, Matrix.one_fin_two]
        ext i j
        fin_cases i <;> fin_cases j <;>
          simp only [Matrix.cons_val', Matrix.cons_val_zero, Matrix.cons_val_one,
            Matrix.head_cons, Matrix.empty_val', Matrix.cons_val_fin_one] <;>
          field_simp <;> ring
      rw [hinv]
      congr 1
    rw [hR]
    intro h
    have h2 : ((4 * Real.pi)⁻¹ : ℝ) ^ 2 = 1 / (8 * Real.pi ^ 2) := by
      rw [h, Real.sq_sqrt (by positivity)]
    have hp2 : (0 : ℝ) < Real.pi ^ 2 := by positivity
    rw [show ((4 * Real.pi)⁻¹ : ℝ) ^ 2 = 1 / (16 * Real.pi ^ 2) by
      field_simp
      ring] at h2
    rw [div_eq_div_iff (by positivity) (by positivity)] at h2
    nlinarith [hp2]

/-! ### Discrete-Fourier toolbox -/

lemma unitExp_add (n : ℕ) (a b : ℤ) :
    unitExp n (a + b) = unitExp n a * unitExp n b := by
  unfold unitExp
  rw [← Complex.exp_add]
  congr 1
  push_cast
  ring

lemma unitExp_conj (n : ℕ) (m : ℤ) :
    (starRingEnd ℂ) (unitExp n m) = unitExp n (-m) := by
  unfold unitExp
  rw [← Complex.exp_conj]
  congr 1
  simp only [map_div₀, map_mul, Complex.conj_I, Complex.conj_ofReal, map_ofNat,
    map_intCast, map_natCast]
  push_cast
  ring

lemma unitExp_mul_nat (n : ℕ) (m : ℤ) (t : ℕ) :
    unitExp n (m * t) = unitExp n m ^ t := by
  unfold unitExp
  rw [← Complex.exp_nat_mul]
  congr 1
  push_cast
  ring

lemma unitExp_n_mul (n : ℕ) (hn : 0 < n) (c : ℤ) :
    unitExp n ((n : ℤ) * c) = 1 := by
  have hn' : (n : ℂ) ≠ 0 := Nat.cast_ne_zero.2 hn.ne'
  unfold unitExp
  rw [show 2 * (Real.pi : ℂ) * Complex.I * (((n : ℤ) * c : ℤ) : ℂ) / n =
      (c : ℂ) * (2 * (Real.pi : ℂ) * Complex.I) from by
    push_cast
    field_simp
    ring]
  exact Complex.exp_int_mul_two_pi_mul_I c

lemma unitExp_eq_one_iff {n : ℕ} (hn : 0 < n) {m : ℤ} :
    unitExp n m = 1 ↔ (n : ℤ) ∣ m := by
  have hn' : (n : ℂ) ≠ 0 := Nat.cast_ne_zero.2 hn.ne'
  constructor
  · intro h
    rw [unitExp, Complex.exp_eq_one_iff] at h
    obtain ⟨c, hc⟩ := h
    have h3 : 2 * (Real.pi : ℂ) * Complex.I * m = (c : ℂ) * (2 * Real.pi * Complex.I) * n := by
      have h4 := congrArg (fun z => z * (n : ℂ)) hc
      simpa [div_mul_cancel₀, hn'] using h4
    have h5 : (m : ℂ) = ((c * n : ℤ) : ℂ) := by
      apply mul_left_cancel₀ Complex.two_pi_I_ne_zero
      push_cast
      linear_combination h3
    have h6 : m = c * n := by exact_mod_cast h5
    exact ⟨c, by rw [h6, mul_comm]⟩
  · rintro ⟨c, hc⟩
    rw [hc]
    exact unitExp_n_mul n hn c

lemma sum_unitExp {n : ℕ} (hn : 0 < n) (m : ℤ) :
    ∑ t ∈ Finset.range n, unitExp n (m * t) =
      if (n : ℤ) ∣ m then (n : ℂ) else 0 := by
  have hpow : ∀ t : ℕ, unitExp n (m * t) = unitExp n m ^ t := fun t =>
    unitExp_mul_nat n m t
  simp only [hpow]
  by_cases hd : (n : ℤ) ∣ m
  · rw [if_pos hd, (unitExp_eq_one_iff hn).2 hd]
    simp
  · rw [if_neg hd]
    have h1 : unitExp n m ≠ 1 := fun h => hd ((unitExp_eq_one_iff hn).1 h)
    rw [geom_sum_eq h1]
    have hn1 : unitExp n m ^ n = 1 := by
      rw [← unitExp_mul_nat, mul_comm]
      exact unitExp_n_mul n hn m
    rw [hn1]
    simp

/-- The weighted half-spectrum sum of a reflection-symmetric summand equals
the full-spectrum sum. -/
lemma hweight_sum {M : Type*} [AddCommMonoid M] {n : ℕ} (hn : 0 < n)
    (F : ℕ → M) (hsym : ∀ k, 0 < k → k < n → F (n - k) = F k) :
    ∑ k ∈ Finset.range (n / 2 + 1), hweight n k • F k =
      ∑ k ∈ Finset.range n, F k := by
  have hK : n / 2 + 1 ≤ n := Nat.succ_le_of_lt (Nat.div_lt_self hn one_lt_two)
  have hA : ∑ k ∈ Finset.range (n / 2 + 1), hweight n k • F k =
      ∑ k ∈ Finset.range (n / 2 + 1), F k +
      ∑ k ∈ (Finset.range (n / 2 + 1)).filter
        (fun k => ¬(k = 0 ∨ 2 * k = n)), F k := by
    rw [Finset.sum_filter, ← Finset.sum_add_distrib]
    refine Finset.sum_congr rfl fun k _ => ?_
    unfold hweight
    by_cases h : k = 0 ∨ 2 * k = n
    · rw [if_pos h, if_neg (not_not_intro h), one_smul, add_zero]
    · rw [if_neg h, if_pos h, two_nsmul]
  have hB : ∑ k ∈ (Finset.range (n / 2 + 1)).filter
      (fun k => ¬(k = 0 ∨ 2 * k = n)), F k =
      ∑ k ∈ Finset.Ico (n / 2 + 1) n, F k := by
    refine Finset.sum_nbij' (fun k => n - k) (fun k => n - k) ?_ ?_ ?_ ?_ ?_
    · intro a ha
      simp only [Finset.mem_filter, Finset.mem_range] at ha
      simp only [Finset.mem_Ico]
      omega
    · intro a ha
      simp only [Finset.mem_Ico] at ha
      simp only [Finset.mem_filter, Finset.mem_range]
      omega
    · intro a ha
      simp only [Finset.mem_filter, Finset.mem_range] at ha
      show n - (n - a) = a
      omega
    · intro a ha
      simp only [Finset.mem_Ico] at ha
      show n - (n - a) = a
      omega
    · intro a ha
      simp only [Finset.mem_filter, Finset.mem_range] at ha
      show F a = F (n - a)
      exact (hsym a (by omega) (by omega)).symm
  have hC : ∑ k ∈ Finset.range (n / 2 + 1), F k +
      ∑ k ∈ Finset.Ico (n / 2 + 1) n, F k = ∑ k ∈ Finset.range n, F k := by
    rw [Finset.range_eq_Ico]
    exact Finset.sum_Ico_consecutive F (Nat.zero_le _) hK
  rw [hA, hB, hC]

lemma rfft_length (x : List ℝ) : (rfft x).length = x.length / 2 + 1 := by
  simp [rfft]

lemma irfft_length (X : List ℂ) (n : ℕ) : (irfft X n).length = n := by
  simp [irfft]

lemma rfft_getD (x : List ℝ) {k : ℕ} (hk : k < x.length / 2 + 1) :
    (rfft x).getD k 0 = ∑ t ∈ Finset.range x.length,
      (x.getD t 0 : ℂ) * unitExp x.length (-(k * t : ℤ)) := by
  have h1 : k < (rfft x).length := by rw [rfft_length]; exact hk
  rw [List.getD_eq_getElem _ _ h1]
  unfold rfft
  rw [List.getElem_map, List.getElem_range]

lemma irfft_getD (X : List ℂ) (n : ℕ) {t : ℕ} (ht : t < n) :
    (irfft X n).getD t 0 = (n : ℝ)⁻¹ * ∑ k ∈ Finset.range (n / 2 + 1),
      (hweight n k : ℝ) * (X.getD k 0 * unitExp n ((k * t : ℤ))).re := by
  have h1 : t < (irfft X n).length := by rw [irfft_length]; exact ht
  rw [List.getD_eq_getElem _ _ h1]
  unfold irfft
  rw [List.getElem_map, List.getElem_range]

/-- numpy's round trip guarantee: `irfft(rfft(x), len(x)) == x`, exactly,
in real arithmetic, for both parities of the length. -/
lemma irfft_rfft (x : List ℝ) : irfft (rfft x) x.length = x := by
  rcases Nat.eq_zero_or_pos x.length with h0 | hn
  · have hx : x = [] := List.length_eq_zero.1 h0
    subst hx
    simp [irfft]
  · have hn' : (x.length : ℝ) ≠ 0 := Nat.cast_ne_zero.2 hn.ne'
    apply List.ext_getElem (by rw [irfft_length])
    intro t h1 h2
    rw [← List.getD_eq_getElem _ 0 h1, ← List.getD_eq_getElem _ 0 h2,
      irfft_getD _ _ h2]
    have hsymG : ∀ k, 0 < k → k < x.length →
        (fun (k : ℕ) => (∑ s ∈ Finset.range x.length, (x.getD s 0 : ℂ) *
          unitExp x.length ((k : ℤ) * ((t : ℤ) - s))).re) (x.length - k) =
        (fun (k : ℕ) => (∑ s ∈ Finset.range x.length, (x.getD s 0 : ℂ) *
          unitExp x.length ((k : ℤ) * ((t : ℤ) - s))).re) k := by
      intro k hk0 hkn
      show (∑ s ∈ Finset.range x.length, (x.getD s 0 : ℂ) *
          unitExp x.length (((x.length - k : ℕ) : ℤ) * ((t : ℤ) - s))).re = _
      have hconj : ∀ s : ℕ, (x.getD s 0 : ℂ) *
          unitExp x.length (((x.length - k : ℕ) : ℤ) * ((t : ℤ) - s)) =
          (starRingEnd ℂ) ((x.getD s 0 : ℂ) *
            unitExp x.length ((k : ℤ) * ((t : ℤ) - s))) := by
        intro s
        rw [map_mul, Complex.conj_ofReal, unitExp_conj]
        congr 1
        rw [show ((x.length - k : ℕ) : ℤ) * ((t : ℤ) - s) =
            (x.length : ℤ) * ((t : ℤ) - s) + -((k : ℤ) * ((t : ℤ) - s)) from by
          push_cast [Nat.cast_sub hkn.le]
          ring]
        rw [unitExp_add, unitExp_n_mul x.length hn, one_mul]
      simp only [hconj]
      rw [← map_sum, Complex.conj_re]
    have key : ∑ k ∈ Finset.range (x.length / 2 + 1), (hweight x.length k : ℝ) *
        ((rfft x).getD k 0 * unitExp x.length (k * t)).re =
        ∑ k ∈ Finset.range x.length,
          (∑ s ∈ Finset.range x.length, (x.getD s 0 : ℂ) *
            unitExp x.length ((k : ℤ) * ((t : ℤ) - s))).re := by
      rw [← hweight_sum hn (fun (k : ℕ) => (∑ s ∈ Finset.range x.length,
        (x.getD s 0 : ℂ) * unitExp x.length ((k : ℤ) * ((t : ℤ) - s))).re) hsymG]
      refine Finset.sum_congr rfl fun k hk => ?_
      rw [nsmul_eq_mul]
      congr 1
      rw [rfft_getD x (Finset.mem_range.1 hk), Finset.sum_mul]
      congr 1
      refine Finset.sum_congr rfl fun s _ => ?_
      rw [mul_assoc, ← unitExp_add]
      congr 1
      ring
    rw [key]
    have hin : ∀ s ∈ Finset.range x.length,
        ∑ k ∈ Finset.range x.length, (x.getD s 0 : ℂ) *
          unitExp x.length ((k : ℤ) * ((t : ℤ) - s)) =
        (x.getD s 0 : ℂ) * (if s = t then (x.length : ℂ) else 0) := by
      intro s hs
      rw [← Finset.mul_sum]
      congr 1
      have hcomm : ∀ k : ℕ, unitExp x.length ((k : ℤ) * ((t : ℤ) - s)) =
          unitExp x.length (((t : ℤ) - s) * k) := by
        intro k
        congr 1
        ring
      simp only [hcomm]
      rw [sum_unitExp hn]
      by_cases hst : s = t
      · subst hst
        simp
      · rw [if_neg ?_, if_neg hst]
        intro hd
        have h0 : ((t : ℤ) - s) = 0 := by
          refine Int.eq_zero_of_abs_lt_dvd hd ?_
          simp only [Finset.mem_range] at hs
          rw [abs_lt]
          constructor <;> omega
        omega
    have hfull : ∑ k ∈ Finset.range x.length,
        (∑ s ∈ Finset.range x.length, (x.getD s 0 : ℂ) *
          unitExp x.length ((k : ℤ) * ((t : ℤ) - s))).re =
        (x.length : ℝ) * x.getD t 0 := by
      rw [← Complex.re_sum, Finset.sum_comm,
        Finset.sum_congr rfl hin]
      simp only [mul_ite, mul_zero, Finset.sum_ite_eq', Finset.mem_range]
      rw [if_pos h2,
        show (x.getD t 0 : ℂ) * (x.length : ℂ) =
          ((x.length * x.getD t 0 : ℝ) : ℂ) from by push_cast; ring,
        Complex.ofReal_re]
    rw [hfull, inv_mul_cancel_left₀ hn']

/-- numpy `rfft` after `irfft`: the spectrum is reproduced except that the DC
bin and (for even `n`) the Nyquist bin keep only their real parts — the
imaginary parts of those two bins are never read by the inverse transform. -/
lemma rfft_irfft (n : ℕ) (hn : 0 < n) (Z : List ℂ) :
    rfft (irfft Z n) = (List.range (n / 2 + 1)).map fun (j : ℕ) =>
      if j = 0 ∨ 2 * j = n then (((Z.getD j 0).re : ℝ) : ℂ) else Z.getD j 0 := by
  have hnC : (n : ℂ) ≠ 0 := Nat.cast_ne_zero.2 hn.ne'
  apply List.ext_getElem
  · rw [rfft_length, irfft_length, List.length_map, List.length_range]
  intro j h1 h2
  have hj : j < n / 2 + 1 := by
    rw [rfft_length, irfft_length] at h1
    exact h1
  unfold rfft
  simp only [List.getElem_map, List.getElem_range, irfft_length]
  have hentry : ∀ t, t < n → ((irfft Z n).getD t 0 : ℂ) =
      (n : ℂ)⁻¹ * ∑ k ∈ Finset.range (n / 2 + 1), (hweight n k : ℂ) *
        ((Z.getD k 0 * unitExp n ((k * t : ℤ)) +
          (starRingEnd ℂ) (Z.getD k 0) * unitExp n (-(k * t : ℤ))) / 2) := by
    intro t ht
    rw [irfft_getD Z n ht]
    push_cast
    refine congrArg _ ?_
    refine Finset.sum_congr rfl fun k _ => ?_
    congr 1
    rw [show (((Z.getD k 0 * unitExp n ((k * t : ℤ))).re : ℝ) : ℂ) =
        (Z.getD k 0 * unitExp n ((k * t : ℤ)) +
          (starRingEnd ℂ) (Z.getD k 0 * unitExp n ((k * t : ℤ)))) / 2 from by
      rw [Complex.add_conj]
      push_cast
      ring]
    rw [map_mul, unitExp_conj]
  have hstep1 : ∑ t ∈ Finset.range n,
      ((irfft Z n).getD t 0 : ℂ) * unitExp n (-(j * t : ℤ)) =
      ∑ t ∈ Finset.range n, ∑ k ∈ Finset.range (n / 2 + 1),
        (n : ℂ)⁻¹ * ((hweight n k : ℂ) / 2) *
          (Z.getD k 0 * unitExp n (((k : ℤ) - j) * t) +
           (starRingEnd ℂ) (Z.getD k 0) * unitExp n (-(((k : ℤ) + j) * t))) := by
    refine Finset.sum_congr rfl fun t ht => ?_
    rw [hentry t (Finset.mem_range.1 ht), Finset.mul_sum, Finset.sum_mul]
    refine Finset.sum_congr rfl fun k _ => ?_
    rw [show unitExp n (((k : ℤ) - j) * t) =
        unitExp n ((k * t : ℤ)) * unitExp n (-(j * t : ℤ)) from by
      rw [← unitExp_add]; congr 1; ring]
    rw [show unitExp n (-(((k : ℤ) + j) * t)) =
        unitExp n (-(k * t : ℤ)) * unitExp n (-(j * t : ℤ)) from by
      rw [← unitExp_add]; congr 1; ring]
    ring
  rw [hstep1, Finset.sum_comm]
  have hstep2 : ∀ k ∈ Finset.range (n / 2 + 1),
      ∑ t ∈ Finset.range n, (n : ℂ)⁻¹ * ((hweight n k : ℂ) / 2) *
        (Z.getD k 0 * unitExp n (((k : ℤ) - j) * t) +
         (starRingEnd ℂ) (Z.getD k 0) * unitExp n (-(((k : ℤ) + j) * t))) =
      (n : ℂ)⁻¹ * ((hweight n k : ℂ) / 2) *
        (Z.getD k 0 * (if (n : ℤ) ∣ ((k : ℤ) - j) then (n : ℂ) else 0) +
         (starRingEnd ℂ) (Z.getD k 0) *
           (if (n : ℤ) ∣ ((k : ℤ) + j) then (n : ℂ) else 0)) := by
    intro k _
    rw [← Finset.mul_sum, Finset.sum_add_distrib, ← Finset.mul_sum, ← Finset.mul_sum]
    have h2 : ∑ t ∈ Finset.range n, unitExp n (-(((k : ℤ) + j) * t)) =
        if (n : ℤ) ∣ ((k : ℤ) + j) then (n : ℂ) else 0 := by
      have hneg : ∀ t : ℕ, unitExp n (-(((k : ℤ) + j) * t)) =
          unitExp n ((-((k : ℤ) + j)) * t) := by
        intro t
        congr 1
        ring
      simp only [hneg, sum_unitExp hn]
      simp only [dvd_neg]
    rw [sum_unitExp hn, h2]
  rw [Finset.sum_congr rfl hstep2]
  have hD1 : ∀ k, k < n / 2 + 1 → (((n : ℤ) ∣ ((k : ℤ) - j)) ↔ k = j) := by
    intro k hk
    constructor
    · intro hd
      have h0 : ((k : ℤ) - j) = 0 := by
        refine Int.eq_zero_of_abs_lt_dvd hd ?_
        rw [abs_lt]
        constructor <;> omega
      omega
    · intro h
      subst h
      simp
  have hD2 : ∀ k, k < n / 2 + 1 →
      (((n : ℤ) ∣ ((k : ℤ) + j)) ↔ ((k = 0 ∧ j = 0) ∨ k + j = n)) := by
    intro k hk
    constructor
    · intro hd
      have hd' : n ∣ (k + j) := by
        rwa [show (k : ℤ) + j = ((k + j : ℕ) : ℤ) from by push_cast; ring,
          Int.natCast_dvd_natCast] at hd
      rcases Nat.eq_zero_or_pos (k + j) with h0 | hpos
      · left
        omega
      · right
        have := Nat.le_of_dvd hpos hd'
        omega
    · rintro (⟨hk0, hj0⟩ | hkj)
      · subst hk0; subst hj0; simp
      · rw [show (k : ℤ) + j = ((k + j : ℕ) : ℤ) from by push_cast; ring, hkj]
  by_cases hj0 : j = 0 ∨ 2 * j = n
  · rw [if_pos hj0]
    have hcond : ∀ k, k < n / 2 + 1 →
        (((k = 0 ∧ j = 0) ∨ k + j = n) ↔ k = j) := by
      intro k hk
      constructor <;> intro h <;> omega
    rw [Finset.sum_congr rfl (fun k hk => by
      rw [if_congr (hD1 k (Finset.mem_range.1 hk)) rfl rfl,
        if_congr ((hD2 k (Finset.mem_range.1 hk)).trans
          (hcond k (Finset.mem_range.1 hk))) rfl rfl])]
    have hw : hweight n j = 1 := by
      unfold hweight
      rw [if_pos hj0]
    rw [Finset.sum_eq_single_of_mem j (Finset.mem_range.2 hj)
      (fun k _ hkj => by
        rw [if_neg hkj]
        ring)]
    simp only [hw, if_pos]
    rw [show Z.getD j 0 * (n : ℂ) + (starRingEnd ℂ) (Z.getD j 0) * (n : ℂ) =
        (Z.getD j 0 + (starRingEnd ℂ) (Z.getD j 0)) * (n : ℂ) from by ring,
      Complex.add_conj]
    push_cast
    field_simp
    ring
  · rw [if_neg hj0]
    have hcond : ∀ k, k < n / 2 + 1 →
        ¬((k = 0 ∧ j = 0) ∨ k + j = n) := by
      intro k hk
      omega
    rw [Finset.sum_congr rfl (fun k hk => by
      rw [if_congr (hD1 k (Finset.mem_range.1 hk)) rfl rfl,
        if_congr (hD2 k (Finset.mem_range.1 hk)) rfl rfl,
        if_neg (hcond k (Finset.mem_range.1 hk))])]
    have hw : hweight n j = 2 := by
      unfold hweight
      rw [if_neg hj0]
    rw [Finset.sum_eq_single_of_mem j (Finset.mem_range.2 hj)
      (fun k _ hkj => by
        rw [if_neg hkj]
        ring)]
    simp only [hw, if_pos]
    field_simp

/-- The DC coefficient of the rFFT of a real signal is real. -/
lemma rfft_dc_im (x : List ℝ) : ((rfft x).getD 0 0).im = 0 := by
  rw [rfft_getD x (Nat.succ_pos _)]
  have h0 : ∀ t : ℕ, (x.getD t 0 : ℂ) * unitExp x.length (-(0 * t : ℤ)) =
      ((x.getD t 0 : ℝ) : ℂ) := by
    intro t
    rw [show (-(0 * t : ℤ)) = (0 : ℤ) from by ring,
      show unitExp x.length 0 = 1 from by unfold unitExp; simp, mul_one]
  simp only [Nat.cast_zero]
  rw [Finset.sum_congr rfl fun t _ => h0 t, ← Complex.ofReal_sum]
  exact Complex.ofReal_im _

/-- For an even-length real signal, the last (Nyquist) rFFT coefficient is
the real alternating sum `Σ_t (-1)^t x_t`. -/
lemma rfft_nyquist (x : List ℝ) (hev : 2 * (x.length / 2) = x.length) :
    (rfft x).getD (x.length / 2) 0 = ((nyquistCoeff x : ℝ) : ℂ) := by
  rcases Nat.eq_zero_or_pos x.length with h0 | hn
  · obtain rfl : x = [] := List.length_eq_zero.1 h0
    simp [rfft, nyquistCoeff]
  · have hnC : (x.length : ℂ) ≠ 0 := Nat.cast_ne_zero.2 hn.ne'
    rw [rfft_getD x (Nat.lt_succ_of_le le_rfl)]
    have hneg1 : unitExp x.length (-(x.length / 2 : ℕ)) = -1 := by
      unfold unitExp
      rw [show 2 * (Real.pi : ℂ) * Complex.I * ((-(x.length / 2 : ℕ) : ℤ) : ℂ) /
          (x.length : ℂ) = -((Real.pi : ℂ) * Complex.I) from by
        have h2 : ((x.length / 2 : ℕ) : ℂ) * 2 = (x.length : ℂ) := by
          have h := (by omega : x.length / 2 * 2 = x.length)
          exact_mod_cast h
        have ha : ((x.length / 2 : ℕ) : ℂ) ≠ 0 := by
          have hpos : 0 < x.length / 2 := by omega
          exact Nat.cast_ne_zero.2 hpos.ne'
        rw [show ((-(x.length / 2 : ℕ) : ℤ) : ℂ) = -((x.length / 2 : ℕ) : ℂ) from by
          norm_cast]
        rw [← h2]
        field_simp
        ring]
      rw [Complex.exp_neg, Complex.exp_pi_mul_I]
      norm_num
    have hterm : ∀ t : ℕ, (x.getD t 0 : ℂ) *
        unitExp x.length (-((x.length / 2 : ℕ) * t : ℤ)) =
        (((-1 : ℝ) ^ t * x.getD t 0 : ℝ) : ℂ) := by
      intro t
      rw [show (-((x.length / 2 : ℕ) * t : ℤ)) = (-(x.length / 2 : ℕ) : ℤ) * t from by
        push_cast
        ring]
      rw [unitExp_mul_nat, hneg1]
      push_cast
      ring
    simp only [hterm]
    rw [← Complex.ofReal_sum]
    rfl

/-- Round trip of two spectrum multipliers whose factors are mutually inverse:
the identity on signals of odd length or with vanishing Nyquist coefficient. -/
lemma specMul_specMul (x : List ℝ) (q r : ℕ → ℂ)
    (hqr : ∀ k, r k * q k = 1) (hq0 : q 0 = 1)
    (hx : Odd x.length ∨ nyquistCoeff x = 0) :
    specMul r (specMul q x x.length) x.length = x := by
  rcases Nat.eq_zero_or_pos x.length with h0 | hn
  · obtain rfl : x = [] := List.length_eq_zero.1 h0
    simp [specMul, irfft]
  · have hylen : (specMul q x x.length).length = x.length := by
      simp [specMul, irfft_length]
    have hr0 : r 0 = 1 := by
      have := hqr 0
      rwa [hq0, mul_one] at this
    have hW : List.zipWith (· * ·)
        ((List.range ((specMul q x x.length).length / 2 + 1)).map r)
        (rfft (specMul q x x.length)) = rfft x := by
      have hrw : rfft (specMul q x x.length) =
          (List.range (x.length / 2 + 1)).map fun (j : ℕ) =>
            if j = 0 ∨ 2 * j = x.length then
              (((List.zipWith (· * ·)
                ((List.range (x.length / 2 + 1)).map q) (rfft x)).getD j 0).re : ℂ)
            else (List.zipWith (· * ·)
              ((List.range (x.length / 2 + 1)).map q) (rfft x)).getD j 0 :=
        rfft_irfft x.length hn _
      apply List.ext_getElem
      · simp [hrw, hylen, rfft_length, List.length_zipWith]
      intro j h1 h2
      have hj : j < x.length / 2 + 1 := by
        rw [rfft_length] at h2
        exact h2
      have hZlen : (List.zipWith (· * ·)
          ((List.range (x.length / 2 + 1)).map q) (rfft x)).length =
          x.length / 2 + 1 := by
        simp [List.length_zipWith, rfft_length]
      have hZj : (List.zipWith (· * ·)
          ((List.range (x.length / 2 + 1)).map q) (rfft x)).getD j 0 =
          q j * (rfft x).getD j 0 := by
        rw [List.getD_eq_getElem _ _ (by rw [hZlen]; exact hj),
          List.getD_eq_getElem _ _ (by rw [rfft_length]; exact hj)]
        rw [List.getElem_zipWith, List.getElem_map, List.getElem_range]
      rw [List.getElem_zipWith, List.getElem_map, List.getElem_range]
      have hjb : j < (rfft (specMul q x x.length)).length := by
        rw [hrw]
        simp only [List.length_map, List.length_range]
        exact hj
      rw [show (rfft (specMul q x x.length))[j] =
        (if j = 0 ∨ 2 * j = x.length then
          (((List.zipWith (· * ·)
            ((List.range (x.length / 2 + 1)).map q) (rfft x)).getD j 0).re : ℂ)
        else (List.zipWith (· * ·)
          ((List.range (x.length / 2 + 1)).map q) (rfft x)).getD j 0) from by
        rw [List.getElem_of_eq hrw, List.getElem_map, List.getElem_range]]
      rw [← List.getD_eq_getElem _ 0 h2]
      by_cases hjz : j = 0
      · subst hjz
        rw [if_pos (Or.inl rfl), hZj, hq0, hr0, one_mul, one_mul]
        have him := rfft_dc_im x
        exact Complex.ext (by simp) (by simpa using him.symm)
      · by_cases hjn : 2 * j = x.length
        · rw [if_pos (Or.inr hjn), hZj]
          have hje : j = x.length / 2 := by omega
          have heven : 2 * (x.length / 2) = x.length := by omega
          have hnyq0 : nyquistCoeff x = 0 := by
            rcases hx with hodd | hz
            · exfalso
              rcases hodd with ⟨m, hm⟩
              omega
            · exact hz
          rw [hje, rfft_nyquist x heven, hnyq0]
          simp
        · rw [if_neg (by tauto), hZj, ← mul_assoc, hqr, one_mul]
    show irfft (List.zipWith (· * ·)
      ((List.range ((specMul q x x.length).length / 2 + 1)).map r)
      (rfft (specMul q x x.length))) x.length = x
    rw [hW, irfft_rfft]

lemma specMul_length (f : ℕ → ℂ) (x : List ℝ) (n : ℕ) :
    (specMul f x n).length = n := by
  simp [specMul, irfft_length]

lemma rotate_portrait_length (port : List (List ℝ)) (phase : ℝ)
    (DM : Option ℝ) (P : ℝ) (freqs : Option (List ℝ)) (nu0 : ℝ) :
    (rotate_portrait port phase DM P freqs nu0).length = port.length := by
  simp [rotate_portrait]

lemma rotate_portrait_getElem (port : List (List ℝ)) (phase P nu0 : ℝ)
    {nn : ℕ} (h : nn < (rotate_portrait port phase none P none nu0).length) :
    (rotate_portrait port phase none P none nu0)[nn] =
      specMul (fun k => Complex.exp ((k : ℂ) * (2 * (Real.pi : ℂ) * Complex.I) *
          ((phase : ℝ) : ℂ)))
        (port.getD nn []) (2 * ((port.getD nn []).length / 2 + 1 - 1)) := by
  unfold rotate_portrait
  rw [List.getElem_map, List.getElem_range]

lemma specZip_getD (f : ℕ → ℂ) (x : List ℝ) {k : ℕ}
    (hk : k < x.length / 2 + 1) :
    (List.zipWith (· * ·) ((List.range (x.length / 2 + 1)).map f)
      (rfft x)).getD k 0 = f k * (rfft x).getD k 0 := by
  rw [List.getD_eq_getElem _ _ (by
      rw [List.length_zipWith, List.length_map, List.length_range, rfft_length,
        min_self]
      exact hk),
    List.getD_eq_getElem _ _ (by rw [rfft_length]; exact hk),
    List.getElem_zipWith, List.getElem_map, List.getElem_range]

lemma rotate_portrait_row_length (port : List (List ℝ)) (phase : ℝ)
    (DM : Option ℝ) (P : ℝ) (freqs : Option (List ℝ)) (nu0 : ℝ) {nn : ℕ}
    (h : nn < (rotate_portrait port phase DM P freqs nu0).length) :
    (rotate_portrait port phase DM P freqs nu0)[nn].length =
      2 * ((port.getD nn []).length / 2 + 1 - 1) := by
  unfold rotate_portrait
  rw [List.getElem_map, List.getElem_range]
  rcases DM with _ | d <;> rcases freqs with _ | fs <;> simp [specMul_length]

/-- C5 (amended): `fft_rotate` by `bins` then by `-bins` reproduces the array
exactly (in exact real arithmetic) for arrays of odd length or with vanishing
Nyquist coefficient `Σ_t (-1)^t arr_t`; likewise `rotate_portrait` by phase
`s` then `-s` (with `DM=None`) reproduces any portrait whose rows have even
length and vanishing Nyquist coefficient.  (For an even-length input with a
nonzero Nyquist coefficient the round trip fails: see the counterexample.) -/
theorem C5_amended_rotate_roundtrip :
    (∀ (arr : List ℝ) (b : ℝ), Odd arr.length ∨ nyquistCoeff arr = 0 →
      fft_rotate (fft_rotate arr b) (-b) = arr) ∧
    (∀ (port : List (List ℝ)) (s P nu0 : ℝ),
      (∀ row ∈ port, 2 * (row.length / 2) = row.length ∧ nyquistCoeff row = 0) →
      rotate_portrait (rotate_portrait port s none P none nu0) (-s) none P
        none nu0 = port) := by
  constructor
  · intro arr b hx
    have hlen : (fft_rotate arr b).length = arr.length := specMul_length _ _ _
    rw [show fft_rotate (fft_rotate arr b) (-b) =
        specMul (fun k => Complex.exp (2 * (Real.pi : ℂ) * Complex.I * k *
          ((-b : ℝ) : ℂ) / ((fft_rotate arr b).length : ℂ)))
          (fft_rotate arr b) (fft_rotate arr b).length from rfl, hlen]
    refine specMul_specMul arr _ _ (fun k => ?_) (by simp) hx
    rw [← Complex.exp_add,
      show 2 * (Real.pi : ℂ) * Complex.I * k * ((-b : ℝ) : ℂ) / arr.length +
        2 * (Real.pi : ℂ) * Complex.I * k * (b : ℂ) / arr.length = 0 from by
        push_cast
        ring]
    exact Complex.exp_zero
  · intro port s P nu0 hrows
    apply List.ext_getElem
    · rw [rotate_portrait_length, rotate_portrait_length]
    intro nn h1 h2
    rw [rotate_portrait_length, rotate_portrait_length] at h1
    have hnn : nn < port.length := h2
    rw [rotate_portrait_getElem (rotate_portrait port s none P none nu0)
      (-s) P nu0 (by rw [rotate_portrait_length, rotate_portrait_length]
                     exact h1)]
    have hrow : (rotate_portrait port s none P none nu0).getD nn [] =
        specMul (fun k => Complex.exp ((k : ℂ) * (2 * (Real.pi : ℂ) *
            Complex.I) * ((s : ℝ) : ℂ)))
          (port.getD nn []) (2 * ((port.getD nn []).length / 2 + 1 - 1)) := by
      rw [List.getD_eq_getElem _ _ (by rw [rotate_portrait_length]; exact hnn),
        rotate_portrait_getElem]
    rw [hrow]
    obtain ⟨hev, hnyq⟩ := hrows (port.getD nn []) (by
      rw [List.getD_eq_getElem _ _ hnn]
      exact List.getElem_mem hnn)
    have harith : 2 * ((port.getD nn []).length / 2 + 1 - 1) =
        (port.getD nn []).length := by
      omega
    rw [harith, specMul_length, harith, ← List.getD_eq_getElem _ [] hnn]
    refine specMul_specMul (port.getD nn []) _ _ (fun k => ?_) (by simp)
      (Or.inr hnyq)
    rw [← Complex.exp_add,
      show (k : ℂ) * (2 * (Real.pi : ℂ) * Complex.I) * ((-s : ℝ) : ℂ) +
        (k : ℂ) * (2 * (Real.pi : ℂ) * Complex.I) * ((s : ℝ) : ℂ) = 0 from by
        push_cast
        ring]
    exact Complex.exp_zero

/-- C6 (amended): `fft_rotate` always returns an array of the input length;
`rotate_portrait` keeps the number of channels but every output row has
`2*(nbin/2)` bins (numpy's default `irfft` length): the shape is preserved
exactly when `nbin` is even, and an odd `nbin` shrinks to `nbin - 1`. -/
theorem C6_amended_rotation_shapes :
    (∀ (arr : List ℝ) (b : ℝ), (fft_rotate arr b).length = arr.length) ∧
    (∀ (port : List (List ℝ)) (phase : ℝ) (DM : Option ℝ) (P : ℝ)
      (freqs : Option (List ℝ)) (nu0 : ℝ),
      (rotate_portrait port phase DM P freqs nu0).map List.length =
        port.map (fun row => 2 * (row.length / 2))) := by
  constructor
  · intro arr b
    exact specMul_length _ _ _
  · intro port phase DM P freqs nu0
    apply List.ext_getElem
    · rw [List.length_map, rotate_portrait_length, List.length_map]
    intro nn h1 h2
    have hnn : nn < port.length := by
      rw [List.length_map] at h2
      exact h2
    rw [List.getElem_map, List.getElem_map,
      rotate_portrait_row_length port phase DM P freqs nu0
        (by rw [rotate_portrait_length]; exact hnn),
      List.getD_eq_getElem _ [] hnn]
    omega

lemma unitExp_zero (n : ℕ) : unitExp n 0 = 1 := by
  simp [unitExp]

lemma unitExp_two_one : unitExp 2 1 = -1 := by
  unfold unitExp
  rw [show 2 * (Real.pi : ℂ) * Complex.I * ((1 : ℤ) : ℂ) / ((2 : ℕ) : ℂ) =
      (Real.pi : ℂ) * Complex.I from by push_cast; ring]
  exact Complex.exp_pi_mul_I

lemma unitExp_two_neg_one : unitExp 2 (-1) = -1 := by
  unfold unitExp
  rw [show 2 * (Real.pi : ℂ) * Complex.I * ((-1 : ℤ) : ℂ) / ((2 : ℕ) : ℂ) =
      -((Real.pi : ℂ) * Complex.I) from by push_cast; ring,
    Complex.exp_neg, Complex.exp_pi_mul_I]
  norm_num

lemma cexp_quarter_turn : Complex.exp (2 * (Real.pi : ℂ) * Complex.I *
    (1 / 2) / 2) = Complex.I := by
  rw [show (2 : ℂ) * (Real.pi : ℂ) * Complex.I * (1 / 2) / 2 =
      ((Real.pi / 2 : ℝ) : ℂ) * Complex.I from by
    push_cast
    ring]
  rw [Complex.exp_mul_I, ← Complex.ofReal_cos, ← Complex.ofReal_sin,
    Real.cos_pi_div_two, Real.sin_pi_div_two]
  simp

lemma fft_rotate_ex_fwd : fft_rotate [(1:ℝ), 0] (1/2) = [2⁻¹, 2⁻¹] := by
  have hr1 : rfft [(1:ℝ), 0] = [1, 1] := by
    unfold rfft
    norm_num [List.range_succ, Finset.sum_range_succ, unitExp_zero]
  unfold fft_rotate specMul
  rw [hr1]
  norm_num [List.range_succ, irfft, Finset.sum_range_succ, unitExp_zero,
    unitExp_two_one, hweight, cexp_quarter_turn]

lemma fft_rotate_ex_bwd : fft_rotate [(2:ℝ)⁻¹, 2⁻¹] (-(1/2)) = [2⁻¹, 2⁻¹] := by
  have hr2 : rfft [(2:ℝ)⁻¹, 2⁻¹] = [1, 0] := by
    unfold rfft
    norm_num [List.range_succ, Finset.sum_range_succ, unitExp_zero,
      unitExp_two_neg_one]
  unfold fft_rotate specMul
  rw [hr2]
  norm_num [List.range_succ, irfft, Finset.sum_range_succ, unitExp_zero,
    unitExp_two_one, hweight]

/-- C5 (counterexample): on the even-length array `[1, 0]` (whose Nyquist
coefficient is `1 ≠ 0`) rotating by `b = 1/2` and back by `-1/2` returns
`[1/2, 1/2]`, not the original array: the claimed round-trip identity fails
in exact real arithmetic because `irfft` discards the imaginary part that the
rotated Nyquist coefficient acquires. -/
theorem C5_counterexample :
    fft_rotate (fft_rotate [(1:ℝ), 0] (1/2)) (-(1/2)) ≠ [(1:ℝ), 0] := by
  rw [fft_rotate_ex_fwd, fft_rotate_ex_bwd]
  intro h
  rw [List.cons.injEq] at h
  exact absurd h.1 (by norm_num)

/-- C5 (witness): the round trip is exact on the odd-length array `[1, 2, 3]`
with `b = 1/3`, and on the one-channel portrait `[[1, 0, -1, 0]]` (even row
length, zero Nyquist coefficient) with phase `1/4`. -/
theorem C5_amended_rotate_roundtrip_witness :
    fft_rotate (fft_rotate [(1:ℝ), 2, 3] (1/3)) (-(1/3)) = [(1:ℝ), 2, 3] ∧
    rotate_portrait (rotate_portrait [[(1:ℝ), 0, -1, 0]] (1/4) none 1 none 1)
      (-(1/4)) none 1 none 1 = [[(1:ℝ), 0, -1, 0]] := by
  constructor
  · exact C5_amended_rotate_roundtrip.1 [1, 2, 3] (1/3)
      (Or.inl ⟨1, by norm_num⟩)
  · refine C5_amended_rotate_roundtrip.2 [[1, 0, -1, 0]] (1/4) 1 1 ?_
    intro row hrow
    rw [List.mem_singleton] at hrow
    subst hrow
    refine ⟨by norm_num, ?_⟩
    norm_num [nyquistCoeff, Finset.sum_range_succ]

/-- C6 (counterexample): `rotate_portrait` does not preserve the shape of a
portrait with an odd number of bins: a single channel of 3 bins comes back
with 2 bins (`numpy.fft.irfft` with its default output length `2*(nbin//2)`). -/
theorem C6_counterexample :
    (rotate_portrait [[(1:ℝ), 0, 0]] (1/3) none 1 none 1).map List.length ≠
      [[(1:ℝ), 0, 0]].map List.length := by
  intro h
  have hb : 0 < (rotate_portrait [[(1:ℝ), 0, 0]] (1/3) none 1 none 1).length := by
    rw [rotate_portrait_length]
    norm_num
  have hb2 : 0 < ((rotate_portrait [[(1:ℝ), 0, 0]] (1/3) none 1
      none 1).map List.length).length := by
    rw [List.length_map]
    exact hb
  have h0 := congrArg (fun (l : List ℕ) => l.getD 0 0) h
  simp only at h0
  rw [List.getD_eq_getElem _ _ hb2, List.getElem_map,
    rotate_portrait_row_length [[(1:ℝ), 0, 0]] (1/3) none 1 none 1 hb] at h0
  norm_num at h0

/-- C3: a subintegration with fewer valid channels than `nchan_min` takes the
degenerate phase-only fallback: the record has `DM`, `DM_err`, `GM`, `GM_err`,
`tau`, `tau_err`, `alpha`, `alpha_err` all `None`, return code `-2`, zero
function evaluations, and an identity covariance of size `nfit`. -/
theorem C3_low_channel_fallback (fit_DM fit_GM fit_scat fix_alpha : Bool)
    (nvalid : ℕ) (joint : SubintResults)
    (phase phase_err scale scale_error : ℝ)
    (h : nvalid < pt_nchan_min fit_DM fit_GM fit_scat fix_alpha) :
    pt_fit_branch fit_DM fit_GM fit_scat fix_alpha nvalid joint phase
        phase_err scale scale_error =
      pt_fallback_results (pt_nfit fit_DM fit_GM fit_scat fix_alpha) phase
        phase_err scale scale_error ∧
    (pt_fallback_results (pt_nfit fit_DM fit_GM fit_scat fix_alpha) phase
        phase_err scale scale_error).DM = none ∧
    (pt_fallback_results (pt_nfit fit_DM fit_GM fit_scat fix_alpha) phase
        phase_err scale scale_error).DM_err = none ∧
    (pt_fallback_results (pt_nfit fit_DM fit_GM fit_scat fix_alpha) phase
        phase_err scale scale_error).GM = none ∧
    (pt_fallback_results (pt_nfit fit_DM fit_GM fit_scat fix_alpha) phase
        phase_err scale scale_error).GM_err = none ∧
    (pt_fallback_results (pt_nfit fit_DM fit_GM fit_scat fix_alpha) phase
        phase_err scale scale_error).tau = none ∧
    (pt_fallback_results (pt_nfit fit_DM fit_GM fit_scat fix_alpha) phase
        phase_err scale scale_error).tau_err = none ∧
    (pt_fallback_results (pt_nfit fit_DM fit_GM fit_scat fix_alpha) phase
        phase_err scale scale_error).alpha = none ∧
    (pt_fallback_results (pt_nfit fit_DM fit_GM fit_scat fix_alpha) phase
        phase_err scale scale_error).alpha_err = none ∧
    (pt_fallback_results (pt_nfit fit_DM fit_GM fit_scat fix_alpha) phase
        phase_err scale scale_error).return_code = -2 ∧
    (pt_fallback_results (pt_nfit fit_DM fit_GM fit_scat fix_alpha) phase
        phase_err scale scale_error).nfeval = 0 ∧
    (pt_fallback_results (pt_nfit fit_DM fit_GM fit_scat fix_alpha) phase
        phase_err scale scale_error).covsize =
      pt_nfit fit_DM fit_GM fit_scat fix_alpha ∧
    (pt_fallback_results (pt_nfit fit_DM fit_GM fit_scat fix_alpha) phase
        phase_err scale scale_error).covariance =
      identityMat (pt_nfit fit_DM fit_GM fit_scat fix_alpha) := by
  refine ⟨?_, rfl, rfl, rfl, rfl, rfl, rfl, rfl, rfl, rfl, rfl, rfl, rfl⟩
  unfold pt_fit_branch
  rw [if_neg (not_le.mpr h)]

/-- C3 (witness): with only the DM fit enabled, `nchan_min = 2`, so a single
valid channel triggers the fallback. -/
theorem C3_low_channel_fallback_witness :
    pt_fit_branch true false false false 1 (pt_fallback_results 1 0 0 0 0)
        2⁻¹ 1 1 1 =
      pt_fallback_results (pt_nfit true false false false) 2⁻¹ 1 1 1 ∧
    (pt_fallback_results (pt_nfit true false false false) 2⁻¹ 1 1 1).DM =
      none ∧
    (pt_fallback_results (pt_nfit true false false false) 2⁻¹ 1 1 1).DM_err =
      none ∧
    (pt_fallback_results (pt_nfit true false false false) 2⁻¹ 1 1 1).GM =
      none ∧
    (pt_fallback_results (pt_nfit true false false false) 2⁻¹ 1 1 1).GM_err =
      none ∧
    (pt_fallback_results (pt_nfit true false false false) 2⁻¹ 1 1 1).tau =
      none ∧
    (pt_fallback_results (pt_nfit true false false false) 2⁻¹ 1 1 1).tau_err =
      none ∧
    (pt_fallback_results (pt_nfit true false false false) 2⁻¹ 1 1 1).alpha =
      none ∧
    (pt_fallback_results (pt_nfit true false false false) 2⁻¹ 1 1
        1).alpha_err = none ∧
    (pt_fallback_results (pt_nfit true false false false) 2⁻¹ 1 1
        1).return_code = -2 ∧
    (pt_fallback_results (pt_nfit true false false false) 2⁻¹ 1 1 1).nfeval =
      0 ∧
    (pt_fallback_results (pt_nfit true false false false) 2⁻¹ 1 1 1).covsize =
      pt_nfit true false false false ∧
    (pt_fallback_results (pt_nfit true false false false) 2⁻¹ 1 1
        1).covariance = identityMat (pt_nfit true false false false) :=
  C3_low_channel_fallback true false false false 1
    (pt_fallback_results 1 0 0 0 0) 2⁻¹ 1 1 1 (by decide)

lemma np_maxabs_replicate_zero (N : ℕ) :
    np_maxabs (List.replicate N (0 : ℝ)) = 0 := by
  induction N with
  | zero => simp [np_maxabs]
  | succ n ih =>
      unfold np_maxabs at ih ⊢
      rw [List.replicate_succ, List.map_cons, List.foldr_cons, ih]
      simp

lemma gaussian_raw_all_cut (N : ℕ) (loc wid : ℝ)
    (hcut : ∀ t < N, ¬|gaussian_zs N loc wid t| < 20) :
    gaussian_raw N loc wid = List.replicate N 0 := by
  unfold gaussian_raw
  rw [List.map_congr_left (fun t ht =>
    if_neg (hcut t (List.mem_range.1 ht)))]
  simp

/-- C7: with the default options (`norm=False`, `abs_wid=False`,
`zeroout=True`), a nonpositive width returns the all-zero length-`N` profile,
and a positive width whose samples all lie beyond the 20-sigma cutoff returns
the raw (all-zero) profile unnormalized: the guard `np.max(abs(retval)) = 0`
prevents the division, so the result is never NaN. -/
theorem C7_gaussian_profile_degenerate (N : ℕ) (loc wid : ℝ) :
    (wid ≤ 0 → gaussian_profile N loc wid false false true =
      List.replicate N 0) ∧
    (0 < wid → (∀ t < N, ¬|gaussian_zs N loc wid t| < 20) →
      gaussian_profile N loc wid false false true = gaussian_raw N loc wid ∧
      gaussian_raw N loc wid = List.replicate N 0) := by
  constructor
  · intro hw
    unfold gaussian_profile
    simp only [Bool.false_eq_true, if_false]
    rcases lt_or_eq_of_le hw with hlt | heq
    · rw [if_neg (not_lt.mpr hw), if_neg (ne_of_lt hlt),
        if_pos ⟨hlt, trivial⟩]
    · rw [if_neg (not_lt.mpr hw), if_pos heq]
  · intro hpos hcut
    have hraw := gaussian_raw_all_cut N loc wid hcut
    have hmax : np_maxabs (gaussian_raw N loc wid) = 0 := by
      rw [hraw]
      exact np_maxabs_replicate_zero N
    refine ⟨?_, hraw⟩
    unfold gaussian_profile
    simp only [Bool.false_eq_true, if_false]
    rw [if_pos hpos, if_pos hmax]

/-- C7 (witness): `wid = -1` gives the zero profile, and `wid = 1/100` at
`loc = 3/10` on a single bin puts the only sample `60·sqrt(2 ln 2) > 20`
sigmas from the peak, so the raw profile is zero and is returned as is. -/
theorem C7_gaussian_profile_degenerate_witness :
    gaussian_profile 1 (3/10) (-1) false false true = List.replicate 1 0 ∧
    (gaussian_profile 1 (3/10) (1/100) false false true =
        gaussian_raw 1 (3/10) (1/100) ∧
      gaussian_raw 1 (3/10) (1/100) = List.replicate 1 0) := by
  constructor
  · exact (C7_gaussian_profile_degenerate 1 (3/10) (-1)).1 (by norm_num)
  · refine (C7_gaussian_profile_degenerate 1 (3/10) (1/100)).2 (by norm_num) ?_
    intro t ht
    interval_cases t
    have hlog : (0:ℝ) < Real.log 2 := Real.log_pos (by norm_num)
    have hs : 0 < Real.sqrt (2 * Real.log 2) :=
      Real.sqrt_pos.2 (by linarith)
    have hz : gaussian_zs 1 (3/10) (1/100) 0 =
        -(60 * Real.sqrt (2 * Real.log 2)) := by
      unfold gaussian_zs gaussian_locval gaussian_mean gaussian_sigma
      rw [Int.fract_eq_self.2 ⟨by norm_num, by norm_num⟩]
      norm_num
      field_simp
      ring
    rw [hz, abs_neg]
    refine not_lt.mpr (le_trans ?_ (le_abs_self _))
    have h2 := Real.log_two_gt_d9
    nlinarith [Real.sq_sqrt (show (0:ℝ) ≤ 2 * Real.log 2 by linarith), hs]

/-- C8 (code bug): with `fit_DM = False` and the default `bounds = None`,
the statement `bounds[1] = (DM0, DM0)` is `None[1] = ...` and raises
`TypeError` before any fitting happens, for every resolution of `DM0`
(supplied or taken from the stored header DM): the call never completes. -/
theorem C8_fix_DM_default_bounds_typeerror (DM0 : Option ℝ) (DM_stored : ℝ) :
    pt_apply_fix_DM false none (pt_resolve_DM0 DM0 DM_stored) =
      Except.error
        "TypeError: NoneType object does not support item assignment" := rfl

lemma RCSTRINGS_covers {s : ℤ} (h1 : -1 ≤ s) (h2 : s ≤ 7) :
    ∃ msg, RCSTRINGS s = some msg := by
  have hc : s = -1 ∨ s = 0 ∨ s = 1 ∨ s = 2 ∨ s = 3 ∨ s = 4 ∨ s = 5 ∨
      s = 6 ∨ s = 7 := by omega
  rcases hc with h | h | h | h | h | h | h | h | h <;> subst h <;>
    exact ⟨_, rfl⟩

/-- C9: for every documented optimizer status (`-1` through `7`, the keys of
`RCSTRINGS`), `fit_portrait` returns normally: the warning flag is set exactly
when `results.success` is not `True`, and the output carries the last iterate
`(phi, DM) = results.x`, the integer return code, the evaluation count, the
scales and parameter uncertainties, the reduced chi-square
`fnval / DoF`, and the wall-clock duration. -/
theorem C9_fit_portrait_returns_last_iterate (data model : List (List ℝ))
    (P : ℝ) (freqs : List ℝ) (nu0 : ℝ) (res : OptResult)
    (h1 : -1 ≤ res.status) (h2 : res.status ≤ 7) :
    fitPortrait data model P freqs nu0 res = Except.ok
      { warned := !res.success
        phi := res.x1
        DM := res.x2
        nfeval := res.nfev
        return_code := res.status
        scales := get_scales data model res.x1 res.x2 P freqs nu0
        param_errs :=
          [(fit_portrait_param_errs freqs.length (fp_nharm model)
              (fp_fft model) (fp_p model) (fp_fft data) (fp_errs data) P
              (fun nn => freqs.getD nn 0) nu0 res.x1 res.x2).1,
           (fit_portrait_param_errs freqs.length (fp_nharm model)
              (fp_fft model) (fp_p model) (fp_fft data) (fp_errs data) P
              (fun nn => freqs.getD nn 0) nu0 res.x1 res.x2).2] ++
          (List.range model.length).map (fun nn =>
            (2 * fp_p model nn * fp_errs data nn) ^ (-(1/2) : ℝ))
        red_chi2 := res.fnval / fp_DoF data freqs
        duration := res.duration } := by
  obtain ⟨msg, hmsg⟩ := RCSTRINGS_covers h1 h2
  unfold fitPortrait
  rw [hmsg]

/-- C9 (witness): a status-6 (`NOPROGRESS`) non-converged optimizer outcome
on a concrete one-channel portrait still yields a normal return whose warning
flag is set and whose fields are the last iterate and bookkeeping values. -/
theorem C9_fit_portrait_returns_last_iterate_witness :
    fitPortrait [[(1:ℝ), 0]] [[(1:ℝ), 0]] 1 [1] 1
        { x1 := 2⁻¹, x2 := 3, fnval := 4, nfev := 5, status := 6,
          success := false, duration := 7 } = Except.ok
      { warned := true
        phi := 2⁻¹
        DM := 3
        nfeval := 5
        return_code := 6
        scales := get_scales [[(1:ℝ), 0]] [[(1:ℝ), 0]] 2⁻¹ 3 1 [1] 1
        param_errs :=
          [(fit_portrait_param_errs ([(1:ℝ)]).length (fp_nharm [[(1:ℝ), 0]])
              (fp_fft [[(1:ℝ), 0]]) (fp_p [[(1:ℝ), 0]]) (fp_fft [[(1:ℝ), 0]])
              (fp_errs [[(1:ℝ), 0]]) 1 (fun nn => ([(1:ℝ)]).getD nn 0) 1
              2⁻¹ 3).1,
           (fit_portrait_param_errs ([(1:ℝ)]).length (fp_nharm [[(1:ℝ), 0]])
              (fp_fft [[(1:ℝ), 0]]) (fp_p [[(1:ℝ), 0]]) (fp_fft [[(1:ℝ), 0]])
              (fp_errs [[(1:ℝ), 0]]) 1 (fun nn => ([(1:ℝ)]).getD nn 0) 1
              2⁻¹ 3).2] ++
          (List.range ([[(1:ℝ), 0]]).length).map (fun nn =>
            (2 * fp_p [[(1:ℝ), 0]] nn * fp_errs [[(1:ℝ), 0]] nn) ^
              (-(1/2) : ℝ))
        red_chi2 := 4 / fp_DoF [[(1:ℝ), 0]] [1]
        duration := 7 } :=
  C9_fit_portrait_returns_last_iterate [[(1:ℝ), 0]] [[(1:ℝ), 0]] 1 [1] 1
    { x1 := 2⁻¹, x2 := 3, fnval := 4, nfev := 5, status := 6,
      success := false, duration := 7 } (by decide) (by decide)

/-- C10: the per-channel noise precisions entering the objective are derived
from the data alone: `errs_c` is the inverse population variance of the real
parts of the last `⌈K/4⌉` harmonic coefficients of channel `c` (the Python 2
slice `dFFT[:, -len(dFFT[0])/4:]`), and the objective handed to the optimizer
is `fit_portrait_function` evaluated with exactly these internal precisions
(and the constant `d` built from them) — no externally supplied noise
estimate appears. -/
theorem C10_internal_noise_precisions (data model : List (List ℝ)) (P : ℝ)
    (freqs : List ℝ) (nu0 phase DM : ℝ) :
    (∀ nn, fp_errs data nn =
      (np_var (((rfft (data.getD nn [])).drop
        (fp_nharm data - (fp_nharm data + 3) / 4)).map Complex.re))⁻¹) ∧
    fitPortraitObjective data model P freqs nu0 phase DM =
      fit_portrait_function freqs.length (fp_nharm model) (fp_fft model)
        (fp_p model) (fp_fft data)
        (pp_dconst data.length (fp_nharm data) (fp_errs data) (fp_fft data))
        (fp_errs data) P (fun nn => freqs.getD nn 0) nu0 phase DM := by
  constructor
  · intro nn
    unfold fp_errs np_std
    have hv : 0 ≤ np_var (((rfft (data.getD nn [])).drop
        (fp_nharm data - (fp_nharm data + 3) / 4)).map Complex.re) := by
      unfold np_var
      refine div_nonneg (List.sum_nonneg fun v hv => ?_) (Nat.cast_nonneg _)
      obtain ⟨w, _, hw⟩ := List.mem_map.1 hv
      rw [← hw]
      positivity
    rw [Real.rpow_neg (Real.sqrt_nonneg _),
      show ((2:ℝ)) = ((2:ℕ):ℝ) from by norm_num, Real.rpow_natCast,
      Real.sq_sqrt hv]
  · rfl
